import Mathlib

/-!
Verification development for the selint policy-analysis plugins
(`plugins/unnecessary_rules.py`, `plugins/global_macros.py`).

The rule-template matcher (`ArgExtractor`), the permission-set fitter
(`SetFitter`) and the two orchestration loops are embedded as executable
Lean definitions.  Rule strings are represented after the external
`policysource.mapping.Mapper.rule_parser` block split (that parser is not
part of the analysed sources; the block structure follows the rule-text
grammar of the design document: an AV rule has blocks kind, source,
target, class, permission field; a type transition has a default-type
block and optionally an object-name block).  Python's `re.match` on the
compiled field patterns (a greedy `([a-zA-Z0-9_-]+)` capture group per
placeholder, interleaved with literal text, anchored at the start only)
is modelled by `matchSegs`/`argTry` below.
-/

namespace Selint

/-- Characters admitted by the `VALID_ARG_R` character class
`[a-zA-Z0-9_-]` of `unnecessary_rules.py`. -/
def idChar (c : Char) : Bool :=
  c.isAlpha || c.isDigit || c = '_' || c = '-'

/-- Text of the `VALID_ARG_R` regex of `unnecessary_rules.py`. -/
def VALID_ARG_R : String := "[a-zA-Z0-9_-]+"

/-- One segment of a template block: literal text, or a positional
placeholder `@@ARGn@@`. -/
inductive Seg where
  | lit (s : String)
  | arg (n : Nat)
deriving DecidableEq, Repr

/-- Placeholder indices occurring in a block, in textual order
(the per-block part of `re.findall(placeholder_r, rule)`). -/
def argsOf (segs : List Seg) : List Nat :=
  segs.filterMap fun s =>
    match s with
    | Seg.arg n => some n
    | Seg.lit _ => none

/-- Whether the compiled block contains a capture group, i.e. the
`VALID_ARG_R in blk` test that decides between the regex path and the
plain string comparison in `ArgExtractor.match_rule`. -/
def hasArg (segs : List Seg) : Bool :=
  segs.any fun s =>
    match s with
    | Seg.arg _ => true
    | Seg.lit _ => false

/-- The compiled regex text of a block: `re.sub(placeholder_r,
"(" + VALID_ARG_R + ")", ...)` restricted to one block, as a character
list. -/
def renderStrL : List Seg → List Char
  | [] => []
  | Seg.lit s :: rest => s.toList ++ renderStrL rest
  | Seg.arg _ :: rest => ("(" ++ VALID_ARG_R ++ ")").toList ++ renderStrL rest

/-- The compiled regex text of a block, as a string. -/
def renderStr (segs : List Seg) : String := String.mk (renderStrL segs)

/-- The block text after substituting every placeholder `n` by `σ n`
(the per-block effect of `substitute_args`), as a character list. -/
def renderSubL (σ : Nat → String) : List Seg → List Char
  | [] => []
  | Seg.lit s :: rest => s.toList ++ renderSubL σ rest
  | Seg.arg n :: rest => (σ n).toList ++ renderSubL σ rest

/-- The block text after substituting every placeholder, as a string. -/
def renderSub (σ : Nat → String) (segs : List Seg) : String :=
  String.mk (renderSubL σ segs)

/-- Backtracking loop of the greedy `+` capture group: try capture
lengths `k, k-1, ..., 1`, keeping a candidate exactly when it consists of
identifier characters and the rest of the pattern (`inner`) matches the
remaining input.  This is Python's leftmost-greedy regex semantics for
the compiled field patterns. -/
def argTry (inner : List Char → Option (List (List Char))) (s : List Char) :
    Nat → Option (List (List Char))
  | 0 => none
  | k + 1 =>
    if (s.take (k + 1)).all idChar then
      match inner (s.drop (k + 1)) with
      | some caps => some (s.take (k + 1) :: caps)
      | none => argTry inner s k
    else argTry inner s k

/-- Match a compiled block against input characters, Python
`re.match` style: anchored at the start, trailing input ignored, one
greedy capture per placeholder.  Returns the captured groups in order,
or `none` when the block does not match. -/
def matchSegs : List Seg → List Char → Option (List (List Char))
  | [], _ => some []
  | Seg.lit l :: rest, s =>
    if l.toList.isPrefixOf s then matchSegs rest (s.drop l.toList.length)
    else none
  | Seg.arg _ :: rest, s => argTry (fun t => matchSegs rest t) s s.length

/-- AV rule kinds (`policysource.mapping.AVRULES`; the design document
fixes the closed enumeration Allow, AuditAllow, DontAudit, NeverAllow). -/
def AVRULES : List String := ["allow", "auditallow", "dontaudit", "neverallow"]

/-- Type-enforcement rule kinds (`policysource.mapping.TERULES`). -/
def TERULES : List String := ["type_transition"]

/-- Opening brace character, written by code point to keep it out of
string literals. -/
def obr : Char := Char.ofNat 123

/-- Closing brace character. -/
def cbr : Char := Char.ofNat 125

/-- Whether a string contains a brace, the `any(x in blk for x in
braces)` test of `ArgExtractor.__init__`. -/
def containsBrace (s : String) : Bool :=
  s.toList.any fun c => c = obr || c = cbr

/-- Python `str.strip` with the two brace characters. -/
def stripBraces (s : String) : String :=
  String.mk (((s.toList.dropWhile fun c => c = obr || c = cbr).reverse.dropWhile
    fun c => c = obr || c = cbr).reverse)

/-- Accumulating worker for `splitWs`; the accumulator holds the
current token reversed. -/
def splitWsAux : List Char → List Char → List String
  | [], acc => if acc.isEmpty then [] else [String.mk acc.reverse]
  | c :: rest, acc =>
    if c.isWhitespace then
      if acc.isEmpty then splitWsAux rest []
      else String.mk acc.reverse :: splitWsAux rest []
    else splitWsAux rest (c :: acc)

/-- Python `str.split()`: split on whitespace runs, dropping empty
pieces. -/
def splitWs (s : String) : List String := splitWsAux s.toList []

/-- Permission tokens of an AV permission block, following
`ArgExtractor.__init__`: a braced block is stripped and split, a plain
block is a single permission token. -/
def parsePerms (s : String) : Finset String :=
  if containsBrace s then (splitWs (stripBraces s)).toFinset else {s}

/-- Python `str.strip` with the double-quote character, used for the
object-name block of name transitions. -/
def stripQuotes (s : String) : String :=
  String.mk (((s.toList.dropWhile fun c => c = '"').reverse.dropWhile
    fun c => c = '"').reverse)

/-- Compiled `ArgExtractor` state: the blocks of the placeholder rule
after `rule_parser`, with the kind block kept as its plain text (the
matcher only ever compares it as a string). -/
structure ArgExtractor where
  kind : String
  src : List Seg
  tgt : List Seg
  cls : List Seg
  var : List Seg
  objname : Option (List Seg)
deriving DecidableEq, Repr

/-- A concrete rule as produced by the setools query (the attributes
`ruletype`, `source`, `target`, `tclass`, `perms`, `default`,
`filename` read by `match_rule`).  `filename` is `none` when the rule
is not a name transition. -/
structure ConcreteRule where
  ruletype : String
  source : String
  target : String
  tclass : String
  perms : Finset String
  default : String
  filename : Option String
deriving DecidableEq

/-- The precomputed `regex_perms` of `ArgExtractor.__init__`: for an AV
template the permission tokens of the compiled block 4, otherwise
`none`. -/
def regexPerms (e : ArgExtractor) : Option (Finset String) :=
  if e.kind ∈ AVRULES then some (parsePerms (renderStr e.var)) else none

/-- The `args` list of `ArgExtractor.__init__`: placeholder indices in
textual order over the whole rule. -/
def eargs (e : ArgExtractor) : List Nat :=
  argsOf e.src ++ argsOf e.tgt ++ argsOf e.cls ++ argsOf e.var ++
    argsOf (e.objname.getD [])

/-- Matching of one standard block (source, class, type-transition
default, regex path of target): the regex path keeps `m.group(1)` only,
the literal path compares the strings. -/
def matchStd (segs : List Seg) (s : String) : Option (List (List Char)) :=
  if hasArg segs then
    match matchSegs segs s.toList with
    | some caps => some [caps.headI]
    | none => none
  else if s = renderStr segs then some [] else none

/-- Matching of the target block, with the `self` expansion case: a
literal `self` template target accepts a non-`self` concrete target
exactly when the concrete rule's source equals its target. -/
def matchTgt (segs : List Seg) (src tgt : String) : Option (List (List Char)) :=
  if hasArg segs then
    match matchSegs segs tgt.toList with
    | some caps => some [caps.headI]
    | none => none
  else if renderStr segs = "self" ∧ tgt ≠ "self" then
    if tgt ≠ src then none else some []
  else if tgt ≠ renderStr segs then none else some []

/-- Preliminary kind handling of `match_rule` (lines 337-348): fetch the
object name for a name transition (`none` result aborts, mirroring the
`except: return None`), reject kinds that are neither AV nor
type transition. -/
def objChk (e : ArgExtractor) (r : ConcreteRule) : Option (Option String) :=
  if r.ruletype = "type_transition" then
    if e.objname.isSome then
      match r.filename with
      | some s => some (some s)
      | none => none
    else some none
  else if r.ruletype ∈ AVRULES then some none
  else none

/-- Block 4 check: AV rules require the concrete permissions to be a
superset of `regex_perms`; type transitions match the default type.
(The `none` permission case follows Python 2, where `None <= set` is
true; it is unreachable for templates built from real rule strings.) -/
def varChk (e : ArgExtractor) (r : ConcreteRule) : Option (List (List Char)) :=
  if r.ruletype ∈ AVRULES then
    match regexPerms e with
    | some ps => if ps ⊆ r.perms then some [] else none
    | none => some []
  else if r.ruletype = "type_transition" then matchStd e.var r.default
  else some []

/-- Block 5 check for name transitions: regex path keeps the first
group, literal path compares after stripping quotes. -/
def objMatch (e : ArgExtractor) (ruleObjname : Option String) :
    Option (List (List Char)) :=
  match ruleObjname with
  | none => some []
  | some onm =>
    if hasArg (e.objname.getD []) then
      match matchSegs (e.objname.getD []) onm.toList with
      | some caps => some [caps.headI]
      | none => none
    else if stripQuotes onm ≠ stripQuotes (renderStr (e.objname.getD [])) then none
    else some []

/-- The matcher `ArgExtractor.match_rule`: block-by-block comparison, aborting on
the first failing block, collecting `m.group(1)` of every regex
block. -/
def match_rule (e : ArgExtractor) (r : ConcreteRule) :
    Option (List (List Char)) :=
  (objChk e r).bind fun ruleObjname =>
  (if r.ruletype = e.kind then some () else none).bind fun _ =>
  (matchStd e.src r.source).bind fun m1 =>
  (matchTgt e.tgt r.source r.target).bind fun m2 =>
  (matchStd e.cls r.tclass).bind fun m3 =>
  (varChk e r).bind fun m4 =>
  (objMatch e ruleObjname).map fun m5 => m1 ++ m2 ++ m3 ++ m4 ++ m5

/-- The binding loop of `ArgExtractor.extract`: fold the
`(argN, match)` pairs into the result dictionary, failing (the raised
`ValueError`) when a placeholder rebinds to a different value. -/
def bindArgs : List (Nat × List Char) → List (Nat × List Char) →
    Except Unit (List (Nat × List Char))
  | acc, [] => Except.ok acc
  | acc, (a, m) :: rest =>
    match acc.lookup a with
    | some v => if v = m then bindArgs acc rest else Except.error ()
    | none => bindArgs (acc ++ [(a, m)]) rest

/-- The extractor `ArgExtractor.extract`: raises (`Except.error`) when the rule does
not match, when the match produced no groups (`if matches:` on an empty
list), or when a placeholder resolves to two different values. -/
def extract (e : ArgExtractor) (r : ConcreteRule) :
    Except Unit (List (Nat × List Char)) :=
  match match_rule e r with
  | some ms => if ms.isEmpty then Except.error () else bindArgs [] ((eargs e).zip ms)
  | none => Except.error ()

/-- The concrete rule obtained by substituting every placeholder of a
template by `σ` (`substitute_args` followed by the external rule
factory). -/
def substRule (e : ArgExtractor) (σ : Nat → String) : ConcreteRule :=
  { ruletype := e.kind
    source := renderSub σ e.src
    target := renderSub σ e.tgt
    tclass := renderSub σ e.cls
    perms := if e.kind ∈ AVRULES then parsePerms (renderSub σ e.var) else ∅
    default := renderSub σ e.var
    filename := e.objname.map (renderSub σ) }

/-! ### SetFitter (`global_macros.py`)

Python permission sets are embedded as explicit element lists (one fixed
iteration order of the Python set, assumed duplicate-free where a
theorem needs it); `Finset` is used where the code forms unions and
differences of whole sets. -/

/-- The class `SetFitter.RichSet`: a named permission set with a per-element
tally, a count of matched elements and a score.  The tally dictionary is
kept as an association list over the set's elements. -/
structure RichSet where
  name : String
  values : List String
  tally : List (String × Nat)
  nonzero : Nat
  score : Rat
deriving DecidableEq

/-- The constructor `RichSet.__init__`: every element of the set starts with tally 0,
`nonzero` and `score` start at 0. -/
def initRich (name : String) (values : List String) : RichSet :=
  { name := name
    values := values
    tally := values.map fun x => (x, 0)
    nonzero := 0
    score := 0 }

/-- Add one to the tally entry of `k` (`self.tally[elem] += 1`). -/
def bumpTally (t : List (String × Nat)) (k : String) : List (String × Nat) :=
  t.map fun p => if p.1 = k then (p.1, p.2 + 1) else p

/-- The method `RichSet.incr`: on the first match of an element the nonzero count
and the score are updated, then the tally is increased. -/
def incr (rs : RichSet) (elem : String) : RichSet :=
  match rs.tally.lookup elem with
  | none => rs
  | some n =>
    if n = 0 then
      { rs with
        tally := bumpTally rs.tally elem
        nonzero := rs.nonzero + 1
        score := ((rs.nonzero + 1 : Nat) : Rat) / (rs.tally.length : Rat) }
    else { rs with tally := bumpTally rs.tally elem }

/-- The fitting loop of `SetFitter.fit`: every element of the target
set is offered to every rich set. -/
def fitLoop (rich : List RichSet) (s : List String) : List RichSet :=
  s.foldl (fun rss elem => rss.map fun rs => incr rs elem) rich

/-- Union of the permission sets of a combination of rich sets
(the `c_set` accumulation of `SetFitter.fit`). -/
def unionOf (c : List RichSet) : Finset String :=
  c.foldl (fun acc x => acc ∪ x.values.toFinset) ∅

/-- All combinations of full-scoring macros, sizes 1 up to the bucket
size (`itertools.combinations(ones, i)` for each `i`). -/
def combosOf (ones : List RichSet) : List (List RichSet) :=
  (List.range ones.length).flatMap fun i => List.sublistsLen (i + 1) ones

/-- Python `min(l, key=f)`: the first element with the least key. -/
def minByKey (f : α → Nat) : List α → Option α
  | [] => none
  | x :: xs =>
    match minByKey f xs with
    | none => some x
    | some y => if f x ≤ f y then some x else some y

/-- The two-stage selection at the end of `SetFitter.fit`
(`m = min(extra_dim)` over the residual sizes, then
`min(extra_dim[m], key=len)` over the tied combinations). -/
def selectMin (l : List (List RichSet × Finset String)) : List RichSet :=
  match (l.map fun p => p.2.card).min? with
  | none => []
  | some m =>
    match minByKey (fun p => p.1.length) (l.filter fun p => p.2.card = m) with
    | some p => p.1
    | none => []

/-- The search `SetFitter.fit`: score every catalog entry, bucket into exact and
partial matches, enumerate the non-empty exact combinations, and pick
the one with least residual and, among those, least size.  The catalog
dictionary is passed as an association list. -/
def fit (d : List (String × List String)) (s : List String) :
    List RichSet × List RichSet :=
  let rich := fitLoop (d.map fun p => initRich p.1 p.2) s
  let ones := rich.filter fun x => x.score = 1
  let part := rich.filter fun x => ¬ x.score = 1
  let withExtra := (combosOf ones).map fun c => (c, s.toFinset \ unionOf c)
  (selectMin withExtra, part)

/-! ### Macro-usage suggestion engine (`global_macros.py` main) -/

/-- One mapped rule of a signature group, reduced to the fields the
suggestion engine reads: its provenance line and the permission tokens
of its permission field. -/
structure MappedRule where
  fileline : String
  perms : List String
deriving DecidableEq

/-- One recorded macro usage at a line: the macro name, and whether the
macro is defined in the `global_macros` file
(`m.macro.file_defined.endswith(u"global_macros")`). -/
structure MacroUsage where
  mname : String
  globalDefined : Bool
deriving DecidableEq

/-- A produced suggestion (`GlobalMacroSuggestion`): macro name, the
macro's permission set (`macro_perms`), the score, the signature it
applies to and the original merged permission set of the group. -/
structure GlobalMacroSuggestion where
  name : String
  macro_perms : Finset String
  score : Rat
  applies_to : String
  original_permset : Finset String
deriving DecidableEq

/-- Build a suggestion from a scored rich set (lines 171 and 203). -/
def mkSug (x : RichSet) (rutc : String) (permset : Finset String) :
    GlobalMacroSuggestion :=
  { name := x.name
    macro_perms := x.values.toFinset
    score := x.score
    applies_to := rutc
    original_permset := permset }

/-- The winner vetting loop (lines 139-164): walk the group's rules;
a line using a macro of another family suppresses the whole group;
macros already used at a line are removed from the winner, and an
emptied winner suppresses the group.  `usages` maps a line to the
macros recorded there (absent lines map to the empty list). -/
def winnerLoop (usages : String → List MacroUsage) :
    List RichSet → List MappedRule → Option (List RichSet)
  | w, [] => some w
  | w, r :: rest =>
    let ms := usages r.fileline
    if ms.isEmpty then winnerLoop usages w rest
    else if ms.any fun m => ¬ m.globalDefined then none
    else
      let w' := w.filter fun x => ¬ (ms.map fun m => m.mname).contains x.name
      if w'.isEmpty then none else winnerLoop usages w' rest

/-- Merged permission token list of a group (lines 112-124, after
ignore-path filtering); one fixed iteration order of the Python set. -/
def groupPerms (filtered : List MappedRule) : List String :=
  (filtered.flatMap fun r => r.perms).dedup

/-- Stable insertion step for the descending sort by score
(`sorted(..., reverse=True)` with the score-based rich comparisons):
an element is placed before the first element whose score is not
larger. -/
def insDesc (x : RichSet) : List RichSet → List RichSet
  | [] => [x]
  | y :: l => if y.score ≤ x.score then x :: y :: l else y :: insDesc x l

/-- Stable descending sort by score. -/
def sortDesc : List RichSet → List RichSet
  | [] => []
  | x :: l => insDesc x (sortDesc l)

/-- Full-match suggestions of one group (lines 136-177): vet the
winner, then emit every surviving macro that is not user-ignored. -/
def fullSugs (d : List (String × List String)) (filtered : List MappedRule)
    (usages : String → List MacroUsage) (ignore : List String)
    (rutc : String) : List GlobalMacroSuggestion :=
  let permset := groupPerms filtered
  let winner := (fit d permset).1
  if winner.isEmpty then []
  else
    match winnerLoop usages winner filtered with
    | none => []
    | some w =>
      (w.filter fun x => ¬ ignore.contains x.name).map fun x =>
        mkSug x rutc permset.toFinset

/-- Partial-match suggestions of one group (lines 179-208): suppressed
outright when any contributing line records any macro usage; otherwise
the partial bucket is filtered by the score threshold and the ignore
list, sorted by descending score, and truncated to the configured
maximum. -/
def partSugs (d : List (String × List String)) (filtered : List MappedRule)
    (usages : String → List MacroUsage) (ignore : List String)
    (threshold : Rat) (maxNo : Nat) (rutc : String) :
    List GlobalMacroSuggestion :=
  let permset := groupPerms filtered
  let part := (fit d permset).2
  if part.isEmpty then []
  else if filtered.any fun r => ¬ (usages r.fileline).isEmpty then []
  else
    ((sortDesc (part.filter fun x =>
        threshold ≤ x.score ∧ ¬ ignore.contains x.name)).take maxNo).map
      fun x => mkSug x rutc permset.toFinset

/-- All suggestions contributed by one signature group. -/
def groupSuggestions (d : List (String × List String))
    (filtered : List MappedRule) (usages : String → List MacroUsage)
    (ignore : List String) (threshold : Rat) (maxNo : Nat) (rutc : String) :
    List GlobalMacroSuggestion :=
  fullSugs d filtered usages ignore rutc ++
    partSugs d filtered usages ignore threshold maxNo rutc

/-! ### Heap model of `SetFitter.fit`

For the frame property the Python objects are made explicit: mutable
sets live in a store of cells, the catalog passes cell references, and
every statement of `fit` that touches a set is translated to a read,
a write or an allocation.  A cell holds the elements of one Python set
as a list. -/

/-- A store of mutable set cells. -/
abbrev Store := List (List String)

/-- Read a cell (`self.d[name]`, `s`, `c_set`, ...). -/
def getRef (st : Store) (i : Nat) : List String := st.getD i []

/-- Python `set.update`: add the missing elements. -/
def cellUnion (cur add : List String) : List String :=
  cur ++ add.filter fun x => ¬ cur.contains x

/-- Python set difference `s - c_set`, building a fresh set. -/
def listDiff (a b : List String) : List String :=
  a.filter fun x => ¬ b.contains x

/-- A rich set whose `values` member is a reference into the store, as
in the Python object which aliases the catalog's set. -/
structure RichSetH where
  name : String
  valuesRef : Nat
  tally : List (String × Nat)
  nonzero : Nat
  score : Rat
deriving DecidableEq

/-- The constructor `RichSet.__init__` against the store: the tally is built by
iterating the referenced set; the set itself is only read. -/
def initRichH (st : Store) (p : String × Nat) : RichSetH :=
  { name := p.1
    valuesRef := p.2
    tally := (getRef st p.2).map fun x => (x, 0)
    nonzero := 0
    score := 0 }

/-- The method `RichSet.incr` against the store: only the tally dictionary of the
rich set itself is touched. -/
def incrH (rs : RichSetH) (elem : String) : RichSetH :=
  match rs.tally.lookup elem with
  | none => rs
  | some n =>
    if n = 0 then
      { rs with
        tally := bumpTally rs.tally elem
        nonzero := rs.nonzero + 1
        score := ((rs.nonzero + 1 : Nat) : Rat) / (rs.tally.length : Rat) }
    else { rs with tally := bumpTally rs.tally elem }

/-- One iteration of the combination loop of `fit`: allocate a fresh
`c_set`, update it with every member's referenced set, then allocate the
fresh residual `extra = s - c_set`.  Only the two fresh cells are ever
written. -/
def combBody (sref : Nat) (acc : Store × List (List RichSetH × Nat))
    (c : List RichSetH) : Store × List (List RichSetH × Nat) :=
  let st0 := acc.1
  let cref := st0.length
  let st1 := st0 ++ [[]]
  let st2 := c.foldl
    (fun s x => s.set cref (cellUnion (getRef s cref) (getRef s x.valuesRef))) st1
  let eref := st2.length
  let st3 := st2 ++ [listDiff (getRef st2 sref) (getRef st2 cref)]
  (st3, acc.2 ++ [(c, eref)])

/-- All combinations of full-scoring macros in the heap model. -/
def combosOfH (ones : List RichSetH) : List (List RichSetH) :=
  (List.range ones.length).flatMap fun i => List.sublistsLen (i + 1) ones

/-- The fitting loop against the store (reads the target cell once,
then only touches the rich sets' own tallies). -/
def fitLoopH (rich : List RichSetH) (s : List String) : List RichSetH :=
  s.foldl (fun rss elem => rss.map fun rs => incrH rs elem) rich

/-- The search `SetFitter.fit` against the store: the catalog is an association
list of names and cell references, the target set is a cell reference.
Returns the updated store together with the winner and the partial
bucket. -/
def fitH (st : Store) (d : List (String × Nat)) (sref : Nat) :
    Store × (List RichSetH × List RichSetH) :=
  let rich := fitLoopH (d.map fun p => initRichH st p) (getRef st sref)
  let ones := rich.filter fun x => x.score = 1
  let part := rich.filter fun x => ¬ x.score = 1
  let res := (combosOfH ones).foldl (combBody sref) (st, [])
  let st1 := res.1
  let pairs := res.2
  let winner :=
    match (pairs.map fun p => (getRef st1 p.2).length).min? with
    | none => []
    | some m =>
      match minByKey (fun p => p.1.length)
          (pairs.filter fun p => (getRef st1 p.2).length = m) with
      | some p => p.1
      | none => []
  (st1, (winner, part))

/-! ### Missing companion rules (`unnecessary_rules.py` main) -/

/-- The constant `ONLY_MAP_RULES` of `policysource.mapping`: the rule kinds the
mapper supports.  Modelled from the spec: the mapping module is not
among the analysed sources; the design document fixes the supported
kinds as the AV kinds plus type transitions. -/
def ONLY_MAP_RULES : List String := AVRULES ++ TERULES

/-- A rule signature up to the class field (`up_to_class`). -/
structure RuleSig where
  kind : String
  src : String
  tgt : String
  cls : String
deriving DecidableEq

/-- One rule mapped to a signature: its permission set (AV rules) and
the text of its tail after the class field (type transitions). -/
structure MappedSigRule where
  perms : Finset String
  deftext : String
deriving DecidableEq

/-- An expected companion rule obtained by substituting the extracted
arguments into a companion template. -/
structure ExpectedRule where
  sig : RuleSig
  perms : Finset String
  deftext : String
deriving DecidableEq

/-- A reported missing rule: an AV companion found incomplete is
annotated with the missing permission names (lines 246-251); a
companion whose signature is absent from the mapping is reported as the
bare expected rule, whose own permission field carries `perms`
(line 256); a type-transition companion absent from its mapped
signature is reported bare (lines 252-254). -/
inductive MissingReport where
  | annotated (sig : RuleSig) (perms : Finset String) (missing : Finset String)
  | bare (sig : RuleSig) (perms : Finset String)
  | bareTT (sig : RuleSig) (deftext : String)
deriving DecidableEq

/-- Union of the permissions of all rules mapped to a signature, the
empty set when the signature is unmapped. -/
def unionPermsAt (mapping : List (RuleSig × List MappedSigRule))
    (sig : RuleSig) : Finset String :=
  match mapping.lookup sig with
  | some rls => rls.foldl (fun a x => a ∪ x.perms) ∅
  | none => ∅

/-- The per-companion body of the checking loop (lines 228-256): an AV
companion is missing when the merged mapped permissions do not cover
its own; a type-transition companion is missing when its exact text is
absent (modelled from the spec: presence of the exact expected rule
string among the mapped rules); an unmapped signature is always
missing. -/
def companionCheck (mapping : List (RuleSig × List MappedSigRule))
    (exp : ExpectedRule) : List MissingReport :=
  match mapping.lookup exp.sig with
  | some rls =>
    let permset := rls.foldl (fun a x => a ∪ x.perms) ∅
    (if exp.sig.kind ∈ AVRULES then
      if ¬ exp.perms ⊆ permset then
        [MissingReport.annotated exp.sig exp.perms (exp.perms \ permset)]
      else []
    else []) ++
    (if exp.sig.kind ∈ TERULES then
      if ¬ rls.any fun x => x.deftext = exp.deftext then
        [MissingReport.bareTT exp.sig exp.deftext]
      else []
    else [])
  | none => [MissingReport.bare exp.sig exp.perms]

/-- The permission names a missing-rule report shows to the user: the
annotated AV report lists its `missing` set; a bare report is the
expected rule itself, whose permission field lists exactly the rule's
own permissions. -/
def namedMissing : MissingReport → Finset String
  | MissingReport.annotated _ _ missing => missing
  | MissingReport.bare _ perms => perms
  | MissingReport.bareTT _ _ => ∅

/-- Substitute extracted bindings into a template block
(`substitute_args`): bound placeholders are replaced by their value,
unbound ones keep their `@@ARGn@@` spelling. -/
def renderBound (bindings : List (Nat × List Char)) : List Seg → List Char
  | [] => []
  | Seg.lit s :: rest => s.toList ++ renderBound bindings rest
  | Seg.arg n :: rest =>
    (match bindings.lookup n with
     | some v => v
     | none => ("@@ARG" ++ toString n ++ "@@").toList) ++ renderBound bindings rest

/-- The expected companion rule built from a companion template and the
extracted bindings. -/
def expectedOf (bindings : List (Nat × List Char)) (c : ArgExtractor) :
    ExpectedRule :=
  { sig :=
      { kind := c.kind
        src := String.mk (renderBound bindings c.src)
        tgt := String.mk (renderBound bindings c.tgt)
        cls := String.mk (renderBound bindings c.cls) }
    perms := parsePerms (String.mk (renderBound bindings c.var))
    deftext := String.mk (renderBound bindings c.var) }

/-- The body of the candidate loop of `main` (lines 213-256) for one
concrete rule returned by the query: extract the arguments — the
`ValueError` raised by `ArgExtractor.extract` is not caught there, so
an extraction failure propagates — then check every supported companion
template. -/
def process_candidate (e : ArgExtractor) (r : ConcreteRule)
    (companions : List ArgExtractor)
    (mapping : List (RuleSig × List MappedSigRule)) :
    Except Unit (List MissingReport) :=
  (extract e r).map fun args =>
    (companions.filter fun c => c.kind ∈ ONLY_MAP_RULES).foldl
      (fun acc c => acc ++ companionCheck mapping (expectedOf args c)) []

/-! ### Scoring lemmas -/

/-- Folding the target elements into one rich set. -/
def scoreFold (rs : RichSet) (l : List String) : RichSet := l.foldl incr rs

/-- The state of a rich set over `vl` after the elements of `p` have
been offered to it. -/
def richState (nm : String) (vl : List String) (p : List String) : RichSet :=
  { name := nm
    values := vl
    tally := vl.map fun x => (x, p.count x)
    nonzero := (vl.toFinset ∩ p.toFinset).card
    score := (((vl.toFinset ∩ p.toFinset).card : Nat) : Rat) / (vl.length : Rat) }

theorem lookup_map_pair (vl : List String) (f : String → Nat) (e : String) :
    (vl.map fun x => (x, f x)).lookup e =
      if e ∈ vl then some (f e) else none := by
  induction vl with
  | nil => simp
  | cons x xs ih =>
    by_cases hxe : e = x
    · subst hxe
      simp [List.lookup]
    · have hbe : (e == x) = false := by simpa using hxe
      simp [List.lookup, hbe, ih, hxe]

theorem bumpTally_map (vl : List String) (f : String → Nat) (e : String) :
    bumpTally (vl.map fun x => (x, f x)) e =
      vl.map fun x => (x, if x = e then f x + 1 else f x) := by
  simp only [bumpTally, List.map_map]
  refine List.map_congr_left fun x _ => ?_
  by_cases hxe : x = e <;> simp [hxe]

theorem tally_append_count (vl p : List String) (e : String) :
    bumpTally (vl.map fun x => (x, p.count x)) e =
      vl.map fun x => (x, (p ++ [e]).count x) := by
  rw [bumpTally_map]
  refine List.map_congr_left fun x _ => ?_
  by_cases hxe : x = e <;>
    simp [hxe, List.count_append, List.count_cons]

theorem incr_richState (nm : String) (vl p : List String) (e : String) :
    incr (richState nm vl p) e = richState nm vl (p ++ [e]) := by
  have hlk := lookup_map_pair vl (fun x => p.count x) e
  by_cases hev : e ∈ vl
  · rw [if_pos hev] at hlk
    by_cases hep : e ∈ p
    · have hc : p.count e ≠ 0 := by
        simpa [List.count_eq_zero] using hep
      have hT : (p ++ [e]).toFinset = p.toFinset := by
        rw [List.toFinset_append]
        refine Finset.union_eq_left.mpr ?_
        simp [hep]
      have ht := tally_append_count vl p e
      simp only [incr, richState, hlk, hc, if_false]
      rw [ht, hT]
    · have hc : p.count e = 0 := by
        simpa [List.count_eq_zero] using hep
      have ht := tally_append_count vl p e
      have hT : (p ++ [e]).toFinset = insert e p.toFinset := by
        rw [List.toFinset_append, Finset.union_comm]
        simp [Finset.insert_eq]
      have hni : e ∉ vl.toFinset ∩ p.toFinset := by
        simp [hep]
      have hcard : (vl.toFinset ∩ (p ++ [e]).toFinset).card =
          (vl.toFinset ∩ p.toFinset).card + 1 := by
        rw [hT, Finset.inter_insert_of_mem (by simpa using hev),
          Finset.card_insert_of_not_mem hni]
      simp only [incr, richState, hlk, hc, if_pos, List.length_map]
      rw [ht, hcard]
  · rw [if_neg hev] at hlk
    have ht : (vl.map fun x => (x, p.count x)) =
        vl.map fun x => (x, (p ++ [e]).count x) := by
      refine List.map_congr_left fun x hx => ?_
      have hxe : x ≠ e := fun h => hev (h ▸ hx)
      simp [List.count_append, List.count_cons, hxe]
    have hT : vl.toFinset ∩ (p ++ [e]).toFinset = vl.toFinset ∩ p.toFinset := by
      rw [List.toFinset_append, Finset.inter_union_distrib_left]
      have : vl.toFinset ∩ [e].toFinset = ∅ := by
        ext a
        simp only [Finset.mem_inter, List.mem_toFinset, List.mem_singleton,
          Finset.not_mem_empty, iff_false, not_and]
        rintro ha rfl
        exact hev ha
      rw [this, Finset.union_empty]
    simp only [incr, richState, hlk]
    rw [ht, hT]

theorem scoreFold_richState (nm : String) (vl : List String) :
    ∀ (l p : List String),
      scoreFold (richState nm vl p) l = richState nm vl (p ++ l) := by
  intro l
  induction l with
  | nil => intro p; simp [scoreFold]
  | cons e rest ih =>
    intro p
    have h1 : scoreFold (richState nm vl p) (e :: rest) =
        scoreFold (incr (richState nm vl p) e) rest := by
      simp [scoreFold]
    rw [h1, incr_richState, ih]
    simp

theorem initRich_eq_richState (nm : String) (vl : List String) :
    initRich nm vl = richState nm vl [] := by
  simp [initRich, richState]

theorem scoreFold_init (nm : String) (vl l : List String) :
    scoreFold (initRich nm vl) l = richState nm vl l := by
  rw [initRich_eq_richState, scoreFold_richState]
  simp

theorem fitLoop_eq_map (s : List String) :
    ∀ rich : List RichSet,
      fitLoop rich s = rich.map fun rs => scoreFold rs s := by
  induction s with
  | nil => intro rich; simp [fitLoop, scoreFold]
  | cons e rest ih =>
    intro rich
    have h1 : fitLoop rich (e :: rest) =
        fitLoop (rich.map fun rs => incr rs e) rest := by
      simp [fitLoop]
    rw [h1, ih, List.map_map]
    simp [scoreFold, Function.comp]

theorem score_of_fold (nm : String) (vl l : List String) :
    (scoreFold (initRich nm vl) l).score =
      (((vl.toFinset ∩ l.toFinset).card : Nat) : Rat) / (vl.length : Rat) := by
  rw [scoreFold_init]
  rfl

theorem score_le_one (nm : String) (vl l : List String) :
    (scoreFold (initRich nm vl) l).score ≤ 1 := by
  rw [score_of_fold]
  rcases Nat.eq_zero_or_pos vl.length with h0 | hpos
  · simp [h0]
  · rw [div_le_one (by exact_mod_cast hpos)]
    have h1 : (vl.toFinset ∩ l.toFinset).card ≤ vl.toFinset.card :=
      Finset.card_le_card (Finset.inter_subset_left)
    have h2 : vl.toFinset.card ≤ vl.length := vl.toFinset_card_le
    exact_mod_cast le_trans h1 h2

theorem score_eq_one_iff (nm : String) (vl l : List String)
    (hvl : vl ≠ []) (hnd : vl.Nodup) :
    (scoreFold (initRich nm vl) l).score = 1 ↔
      vl.toFinset ⊆ l.toFinset := by
  rw [score_of_fold]
  have hcardlen : vl.toFinset.card = vl.length := List.toFinset_card_of_nodup hnd
  have hlen : (0 : Rat) < (vl.length : Rat) := by
    exact_mod_cast List.length_pos.mpr hvl
  rw [div_eq_one_iff_eq (ne_of_gt hlen)]
  constructor
  · intro h
    have hc : (vl.toFinset ∩ l.toFinset).card = vl.length := by exact_mod_cast h
    have h1 : (vl.toFinset ∩ l.toFinset).card ≤ vl.toFinset.card :=
      Finset.card_le_card (Finset.inter_subset_left)
    have heq : vl.toFinset ∩ l.toFinset = vl.toFinset :=
      Finset.eq_of_subset_of_card_le (Finset.inter_subset_left)
        (by omega)
    exact Finset.inter_eq_left.mp heq
  · intro h
    have heq : vl.toFinset ∩ l.toFinset = vl.toFinset :=
      Finset.inter_eq_left.mpr h
    rw [heq, hcardlen]

theorem score_one_subset (nm : String) (vl l : List String)
    (h : (scoreFold (initRich nm vl) l).score = 1) :
    vl.toFinset ⊆ l.toFinset := by
  rw [score_of_fold] at h
  have hlen : vl.length ≠ 0 := by
    intro h0
    rw [h0] at h
    simp at h
  have hq : (((vl.toFinset ∩ l.toFinset).card : Nat) : Rat) = (vl.length : Rat) := by
    have hne : ((vl.length : Rat)) ≠ 0 := by exact_mod_cast hlen
    exact (div_eq_one_iff_eq hne).mp h
  have hc : (vl.toFinset ∩ l.toFinset).card = vl.length := by exact_mod_cast hq
  have h1 : (vl.toFinset ∩ l.toFinset).card ≤ vl.toFinset.card :=
    Finset.card_le_card Finset.inter_subset_left
  have h2 : vl.toFinset.card ≤ vl.length := vl.toFinset_card_le
  have heq : vl.toFinset ∩ l.toFinset = vl.toFinset :=
    Finset.eq_of_subset_of_card_le Finset.inter_subset_left (by omega)
  exact Finset.inter_eq_left.mp heq

/-! ### Selection lemmas -/

theorem foldl_min_le_init (xs : List Nat) : ∀ x : Nat, xs.foldl min x ≤ x := by
  induction xs with
  | nil => intro x; simp
  | cons a xs ih =>
    intro x
    calc (a :: xs).foldl min x = xs.foldl min (min x a) := by simp
    _ ≤ min x a := ih (min x a)
    _ ≤ x := min_le_left x a

theorem foldl_min_le_mem (xs : List Nat) :
    ∀ x : Nat, ∀ y ∈ xs, xs.foldl min x ≤ y := by
  induction xs with
  | nil => intro x y hy; simp at hy
  | cons a xs ih =>
    intro x y hy
    rcases List.mem_cons.mp hy with rfl | hy
    · calc (y :: xs).foldl min x = xs.foldl min (min x y) := by simp
      _ ≤ min x y := foldl_min_le_init xs (min x y)
      _ ≤ y := min_le_right x y
    · calc (a :: xs).foldl min x = xs.foldl min (min x a) := by simp
      _ ≤ y := ih (min x a) y hy

theorem foldl_min_mem (xs : List Nat) :
    ∀ x : Nat, xs.foldl min x = x ∨ xs.foldl min x ∈ xs := by
  induction xs with
  | nil => intro x; simp
  | cons a xs ih =>
    intro x
    have hstep : (a :: xs).foldl min x = xs.foldl min (min x a) := by simp
    rcases ih (min x a) with h | h
    · rcases min_cases x a with ⟨hm, _⟩ | ⟨hm, _⟩
      · exact Or.inl (by rw [hstep, h, hm])
      · exact Or.inr (by rw [hstep, h, hm]; exact List.mem_cons_self a xs)
    · exact Or.inr (by rw [hstep]; exact List.mem_cons_of_mem a h)

theorem natMin?_mem {l : List Nat} {m : Nat} (h : l.min? = some m) : m ∈ l := by
  cases l with
  | nil => simp [List.min?] at h
  | cons x xs =>
    simp only [List.min?] at h
    rcases foldl_min_mem xs x with h' | h' <;>
      simp_all [List.mem_cons]

theorem natMin?_le {l : List Nat} {m : Nat} (h : l.min? = some m) :
    ∀ a ∈ l, m ≤ a := by
  cases l with
  | nil => simp [List.min?] at h
  | cons x xs =>
    simp only [List.min?, Option.some.injEq] at h
    intro a ha
    rcases List.mem_cons.mp ha with rfl | ha
    · rw [← h]; exact foldl_min_le_init xs a
    · rw [← h]; exact foldl_min_le_mem xs x a ha

theorem natMin?_isSome {l : List Nat} (h : l ≠ []) : ∃ m, l.min? = some m := by
  cases l with
  | nil => exact absurd rfl h
  | cons x xs => exact ⟨xs.foldl min x, rfl⟩

theorem minByKey_isSome {f : α → Nat} {l : List α} (h : l ≠ []) :
    ∃ x, minByKey f l = some x := by
  cases l with
  | nil => exact absurd rfl h
  | cons a xs =>
    cases hm : minByKey f xs with
    | none => exact ⟨a, by simp [minByKey, hm]⟩
    | some y =>
      by_cases hle : f a ≤ f y
      · exact ⟨a, by simp [minByKey, hm, hle]⟩
      · exact ⟨y, by simp [minByKey, hm, hle]⟩

theorem minByKey_mem {f : α → Nat} :
    ∀ {l : List α} {x : α}, minByKey f l = some x → x ∈ l := by
  intro l
  induction l with
  | nil => intro x h; simp [minByKey] at h
  | cons a xs ih =>
    intro x
    cases hm : minByKey f xs with
    | none =>
      intro h
      simp only [minByKey, hm] at h
      simp only [Option.some.injEq] at h
      simp [h]
    | some y =>
      intro h
      simp only [minByKey, hm] at h
      by_cases hle : f a ≤ f y
      · rw [if_pos hle] at h
        simp only [Option.some.injEq] at h
        simp [h]
      · rw [if_neg hle] at h
        simp only [Option.some.injEq] at h
        exact List.mem_cons_of_mem a (h ▸ ih hm)

theorem minByKey_le {f : α → Nat} :
    ∀ {l : List α} {x : α}, minByKey f l = some x → ∀ y ∈ l, f x ≤ f y := by
  intro l
  induction l with
  | nil => intro x h; simp [minByKey] at h
  | cons a xs ih =>
    intro x h y hy
    cases hm : minByKey f xs with
    | none =>
      simp only [minByKey, hm, Option.some.injEq] at h
      have hxs : xs = [] := by
        cases hxx : xs with
        | nil => rfl
        | cons b bs =>
          obtain ⟨z, hz⟩ := minByKey_isSome (f := f)
            (l := b :: bs) (List.cons_ne_nil b bs)
          rw [hxx] at hm
          rw [hm] at hz
          cases hz
      subst hxs
      rcases List.mem_cons.mp hy with rfl | hy
      · simp [h]
      · simp at hy
    | some z =>
      simp only [minByKey, hm] at h
      by_cases hle : f a ≤ f z
      · rw [if_pos hle] at h
        simp only [Option.some.injEq] at h
        subst h
        rcases List.mem_cons.mp hy with rfl | hy
        · exact le_refl _
        · exact le_trans hle (ih hm y hy)
      · rw [if_neg hle] at h
        simp only [Option.some.injEq] at h
        subst h
        rcases List.mem_cons.mp hy with rfl | hy
        · exact le_of_lt (lt_of_not_le hle)
        · exact ih hm y hy

theorem selectMin_nil : selectMin [] = [] := by
  simp [selectMin, List.min?]

theorem selectMin_spec (l : List (List RichSet × Finset String)) (hl : l ≠ []) :
    ∃ p ∈ l, selectMin l = p.1 ∧ (∀ q ∈ l, p.2.card ≤ q.2.card) ∧
      (∀ q ∈ l, q.2.card = p.2.card → p.1.length ≤ q.1.length) := by
  have hmap : l.map (fun p => p.2.card) ≠ [] := by
    simpa using hl
  obtain ⟨m, hm⟩ := natMin?_isSome hmap
  have hmmem : m ∈ l.map fun p => p.2.card := natMin?_mem hm
  obtain ⟨p0, hp0, hp0c⟩ := List.mem_map.mp hmmem
  have hfil : (l.filter fun p => p.2.card = m) ≠ [] := by
    intro hnil
    have : p0 ∈ l.filter fun p => p.2.card = m := by
      rw [List.mem_filter]
      exact ⟨hp0, by simp [hp0c]⟩
    rw [hnil] at this
    simp at this
  obtain ⟨p, hp⟩ := minByKey_isSome (f := fun p => p.1.length) hfil
  have hpmem := minByKey_mem hp
  rw [List.mem_filter] at hpmem
  obtain ⟨hpl, hpc⟩ := hpmem
  have hpcard : p.2.card = m := by simpa using hpc
  refine ⟨p, hpl, ?_, ?_, ?_⟩
  · simp only [selectMin, hm, hp]
  · intro q hq
    rw [hpcard]
    exact natMin?_le hm _ (List.mem_map.mpr ⟨q, hq, rfl⟩)
  · intro q hq hqc
    have hqfil : q ∈ l.filter fun p => p.2.card = m := by
      rw [List.mem_filter]
      exact ⟨hq, by simp [hqc, hpcard]⟩
    exact minByKey_le hp q hqfil

/-- Shorthand for the scored catalog of a fit call. -/
def richOf (d : List (String × List String)) (s : List String) : List RichSet :=
  fitLoop (d.map fun p => initRich p.1 p.2) s

/-- Shorthand for the exact-scoring bucket of a fit call. -/
def onesOf (d : List (String × List String)) (s : List String) : List RichSet :=
  (richOf d s).filter fun x => x.score = 1

theorem combosOf_mem (ones : List RichSet) (c : List RichSet) :
    c ∈ combosOf ones ↔ c.Sublist ones ∧ c ≠ [] := by
  simp only [combosOf, List.mem_flatMap, List.mem_range]
  constructor
  · rintro ⟨i, hi, hc⟩
    obtain ⟨hsub, hlen⟩ := (List.mem_sublistsLen).mp hc
    exact ⟨hsub, by intro h; rw [h] at hlen; simp at hlen⟩
  · rintro ⟨hsub, hne⟩
    have hpos : 0 < c.length := List.length_pos.mpr hne
    refine ⟨c.length - 1, ?_, ?_⟩
    · have := hsub.length_le
      omega
    · refine List.mem_sublistsLen.mpr ⟨hsub, ?_⟩
      omega

theorem fit_eq (d : List (String × List String)) (s : List String) :
    fit d s =
      (selectMin ((combosOf (onesOf d s)).map fun c => (c, s.toFinset \ unionOf c)),
        (richOf d s).filter fun x => ¬ x.score = 1) := rfl

theorem fit_winner_cases (d : List (String × List String)) (s : List String) :
    (fit d s).1 = [] ∨
      ∃ c ∈ combosOf (onesOf d s), (fit d s).1 = c ∧
        (∀ c' ∈ combosOf (onesOf d s),
          (s.toFinset \ unionOf c).card ≤ (s.toFinset \ unionOf c').card) ∧
        (∀ c' ∈ combosOf (onesOf d s),
          (s.toFinset \ unionOf c').card = (s.toFinset \ unionOf c).card →
            c.length ≤ c'.length) := by
  rcases hcs : (combosOf (onesOf d s)).map
      (fun c => (c, s.toFinset \ unionOf c)) with _ | ⟨p0, ps⟩
  · left
    rw [fit_eq]
    simp only [hcs, selectMin_nil]
  · right
    have hne : (combosOf (onesOf d s)).map
        (fun c => (c, s.toFinset \ unionOf c)) ≠ [] := by
      rw [hcs]; exact List.cons_ne_nil _ _
    obtain ⟨p, hpmem, hsel, hmin, hlen⟩ := selectMin_spec _ hne
    obtain ⟨c, hcmem, hpc⟩ := List.mem_map.mp hpmem
    refine ⟨c, hcmem, ?_, ?_, ?_⟩
    · rw [fit_eq]
      simpa [← hpc] using hsel
    · intro c' hc'
      have h := hmin (c', s.toFinset \ unionOf c')
        (List.mem_map.mpr ⟨c', hc', rfl⟩)
      rw [← hpc] at h
      exact h
    · intro c' hc' hcard
      have h := hlen (c', s.toFinset \ unionOf c')
        (List.mem_map.mpr ⟨c', hc', rfl⟩)
      rw [← hpc] at h
      exact h (by simpa using hcard)

theorem fit_winner_sublist (d : List (String × List String)) (s : List String) :
    (fit d s).1.Sublist (onesOf d s) := by
  rcases fit_winner_cases d s with h | ⟨c, hc, heq, _, _⟩
  · rw [h]; exact List.nil_sublist _
  · rw [heq]; exact ((combosOf_mem _ _).mp hc).1

theorem fit_winner_empty_iff (d : List (String × List String))
    (s : List String) : (fit d s).1 = [] ↔ onesOf d s = [] := by
  constructor
  · intro h
    by_contra hone
    obtain ⟨x, hx⟩ := List.exists_mem_of_ne_nil _ hone
    have hcin : [x] ∈ combosOf (onesOf d s) := by
      refine (combosOf_mem _ _).mpr ⟨?_, by simp⟩
      simpa using List.singleton_sublist.mpr hx
    rcases fit_winner_cases d s with h' | ⟨c, hc, heq, _, _⟩
    · have hmapne : (combosOf (onesOf d s)).map
          (fun c => (c, s.toFinset \ unionOf c)) ≠ [] := by
        simp only [ne_eq, List.map_eq_nil_iff]
        intro hk
        rw [hk] at hcin
        simp at hcin
      obtain ⟨p, hpmem, hsel, _, _⟩ := selectMin_spec _ hmapne
      obtain ⟨c, hcmem, hpc⟩ := List.mem_map.mp hpmem
      have hcne : c ≠ [] := ((combosOf_mem _ _).mp hcmem).2
      rw [fit_eq] at h
      simp only at h
      rw [hsel, ← hpc] at h
      exact hcne h
    · rw [heq] at h
      exact absurd h ((combosOf_mem _ _).mp hc).2
  · intro h
    rw [fit_eq]
    simp [combosOf, h, selectMin_nil]

theorem rich_mem_spec (d : List (String × List String)) (s : List String)
    (x : RichSet) (hx : x ∈ richOf d s) :
    ∃ p ∈ d, x = scoreFold (initRich p.1 p.2) s := by
  rw [richOf, fitLoop_eq_map, List.map_map] at hx
  obtain ⟨p, hp, hpx⟩ := List.mem_map.mp hx
  exact ⟨p, hp, hpx.symm⟩

theorem rich_score_le_one (d : List (String × List String)) (s : List String)
    (x : RichSet) (hx : x ∈ richOf d s) : x.score ≤ 1 := by
  obtain ⟨p, _, rfl⟩ := rich_mem_spec d s x hx
  exact score_le_one p.1 p.2 s

theorem ones_values_subset (d : List (String × List String)) (s : List String)
    (x : RichSet) (hx : x ∈ onesOf d s) : x.values.toFinset ⊆ s.toFinset := by
  rw [onesOf, List.mem_filter] at hx
  obtain ⟨hxr, hxs⟩ := hx
  obtain ⟨p, _, rfl⟩ := rich_mem_spec d s x hxr
  have hsc : (scoreFold (initRich p.1 p.2) s).score = 1 := by simpa using hxs
  have hval : (scoreFold (initRich p.1 p.2) s).values = p.2 := by
    rw [scoreFold_init]; rfl
  rw [hval]
  exact score_one_subset p.1 p.2 s hsc

/-! ### Claims C3 and C4 -/

/-- C3 (amended): for a catalog entry with duplicate-free permission
list P and a target list T, the computed score equals
card (P ∩ T) / card P, and for nonempty P the score equals 1 exactly
when P ⊆ T.  (For empty P the code keeps score 0 although ∅ ⊆ T, so the
equivalence needs P nonempty; see the counterexample.) -/
theorem C3_score_spec (nm : String) (P T : List String) (hnd : P.Nodup) :
    ((scoreFold (initRich nm P) T).score =
      (((P.toFinset ∩ T.toFinset).card : Nat) : Rat) /
        ((P.toFinset.card : Nat) : Rat)) ∧
    (P ≠ [] →
      ((scoreFold (initRich nm P) T).score = 1 ↔ P.toFinset ⊆ T.toFinset)) := by
  constructor
  · rw [score_of_fold, List.toFinset_card_of_nodup hnd]
  · intro hne
    exact score_eq_one_iff nm P T hne hnd

/-- C3 counterexample: with the empty permission set P and target
{read}, P ⊆ T holds but the computed score is 0, refuting the claimed
equivalence `score = 1 ↔ P ⊆ T` as stated. -/
theorem C3_counterexample :
    ¬ ((scoreFold (initRich "m" ([] : List String)) ["read"]).score = 1 ↔
      ([] : List String).toFinset ⊆ (["read"] : List String).toFinset) := by
  decide

/-- C3 witness: the amended equivalence evaluated at P = {read},
T = {read, write}. -/
theorem C3_witness :
    (scoreFold (initRich "m" ["read"]) ["read", "write"]).score = 1 ↔
      (["read"] : List String).toFinset ⊆
        (["read", "write"] : List String).toFinset :=
  (C3_score_spec "m" ["read"] ["read", "write"] (by decide)).2 (by decide)

/-- C4: the fit winner is a sub-collection of the exact bucket; it is
empty exactly when the exact bucket is empty; among all non-empty
sub-collections of the exact bucket it minimises the residual size and,
among those, the number of macros; and the partial result returns
exactly the entries scoring below 1. -/
theorem C4_fit_minimal_cover (d : List (String × List String))
    (s : List String) :
    ((fit d s).1.Sublist (onesOf d s)) ∧
    ((fit d s).1 = [] ↔ onesOf d s = []) ∧
    (∀ c, c.Sublist (onesOf d s) → c ≠ [] →
      (s.toFinset \ unionOf (fit d s).1).card ≤
        (s.toFinset \ unionOf c).card) ∧
    (∀ c, c.Sublist (onesOf d s) → c ≠ [] →
      (s.toFinset \ unionOf c).card =
          (s.toFinset \ unionOf (fit d s).1).card →
      (fit d s).1.length ≤ c.length) ∧
    ((fit d s).2 = (richOf d s).filter fun x => x.score < 1) := by
  refine ⟨fit_winner_sublist d s, fit_winner_empty_iff d s, ?_, ?_, ?_⟩
  · intro c hc hcne
    rcases fit_winner_cases d s with h | ⟨c0, hc0, heq, hmin, _⟩
    · have hones := (fit_winner_empty_iff d s).mp h
      rw [hones] at hc
      exact absurd (List.sublist_nil.mp hc) hcne
    · rw [heq]
      exact hmin c ((combosOf_mem _ _).mpr ⟨hc, hcne⟩)
  · intro c hc hcne hcard
    rcases fit_winner_cases d s with h | ⟨c0, hc0, heq, _, hlen⟩
    · have hones := (fit_winner_empty_iff d s).mp h
      rw [hones] at hc
      exact absurd (List.sublist_nil.mp hc) hcne
    · rw [heq]
      rw [heq] at hcard
      exact hlen c ((combosOf_mem _ _).mpr ⟨hc, hcne⟩) hcard
  · rw [fit_eq]
    simp only
    refine List.filter_congr fun x hx => ?_
    have hle : x.score ≤ 1 := rich_score_le_one d s x hx
    apply decide_eq_decide.mpr
    constructor
    · intro h
      exact lt_of_le_of_ne hle h
    · intro h
      exact ne_of_lt h

/-- C4 witness: the residual minimality instantiated at the design
document's example catalog (r_file, w_file, rw_file over
{read, write, open}), with the full exact bucket as competitor. -/
theorem C4_witness :
    ((["read", "write", "open"] : List String).toFinset \
        unionOf (fit [("r_file", ["read", "open"]), ("w_file", ["write", "open"]),
          ("rw_file", ["read", "write", "open"])] ["read", "write", "open"]).1).card ≤
      ((["read", "write", "open"] : List String).toFinset \
        unionOf (onesOf [("r_file", ["read", "open"]), ("w_file", ["write", "open"]),
          ("rw_file", ["read", "write", "open"])] ["read", "write", "open"])).card :=
  (C4_fit_minimal_cover _ _).2.2.1 _ (List.Sublist.refl _) (by
    have hsc : (scoreFold (initRich "rw_file" ["read", "write", "open"])
        ["read", "write", "open"]).score = 1 := by
      rw [score_of_fold]
      have hcard : (((["read", "write", "open"] : List String)).toFinset ∩
          (["read", "write", "open"] : List String).toFinset).card = 3 := by
        decide
      rw [hcard]
      norm_num
    have hx : scoreFold (initRich "rw_file" ["read", "write", "open"])
        ["read", "write", "open"] ∈
          onesOf [("r_file", ["read", "open"]), ("w_file", ["write", "open"]),
            ("rw_file", ["read", "write", "open"])] ["read", "write", "open"] := by
      rw [onesOf, List.mem_filter]
      refine ⟨?_, by simp [hsc]⟩
      rw [richOf, fitLoop_eq_map, List.map_map]
      exact List.mem_map.mpr ⟨("rw_file", ["read", "write", "open"]), by simp, rfl⟩
    exact List.ne_nil_of_mem hx)

/-! ### Claim C2 -/

theorem insDesc_mem (x : RichSet) (l : List RichSet) (y : RichSet)
    (hy : y ∈ insDesc x l) : y = x ∨ y ∈ l := by
  induction l with
  | nil => simpa [insDesc] using hy
  | cons a as ih =>
    rw [insDesc] at hy
    by_cases hle : a.score ≤ x.score
    · rw [if_pos hle] at hy
      rcases List.mem_cons.mp hy with rfl | hy
      · exact Or.inl rfl
      · exact Or.inr hy
    · rw [if_neg hle] at hy
      rcases List.mem_cons.mp hy with rfl | hy
      · exact Or.inr (List.mem_cons_self _ _)
      · rcases ih hy with h | h
        · exact Or.inl h
        · exact Or.inr (List.mem_cons_of_mem a h)

theorem sortDesc_mem (l : List RichSet) (y : RichSet)
    (hy : y ∈ sortDesc l) : y ∈ l := by
  induction l with
  | nil => simp [sortDesc] at hy
  | cons a as ih =>
    rw [sortDesc] at hy
    rcases insDesc_mem a (sortDesc as) y hy with rfl | h
    · exact List.mem_cons_self _ _
    · exact List.mem_cons_of_mem a (ih h)

theorem winnerLoop_mem (usages : String → List MacroUsage) :
    ∀ (rs : List MappedRule) (w w' : List RichSet),
      winnerLoop usages w rs = some w' → ∀ x ∈ w', x ∈ w := by
  intro rs
  induction rs with
  | nil =>
    intro w w' h x hx
    rw [winnerLoop] at h
    cases h
    exact hx
  | cons r rest ih =>
    intro w w' h x hx
    rw [winnerLoop] at h
    by_cases hms : (usages r.fileline).isEmpty
    · rw [if_pos hms] at h
      exact ih w w' h x hx
    · rw [if_neg hms] at h
      by_cases hng : (usages r.fileline).any fun m => ¬ m.globalDefined
      · rw [if_pos hng] at h
        cases h
      · rw [if_neg hng] at h
        by_cases hw' : (w.filter fun x =>
            ¬ ((usages r.fileline).map fun m => m.mname).contains x.name).isEmpty
        · rw [if_pos hw'] at h
          cases h
        · rw [if_neg hw'] at h
          have := ih _ w' h x hx
          exact (List.mem_filter.mp this).1

/-- C2 (amended): every full-match suggestion (score 1) emitted by the
suggestion engine for a group satisfies `covered ⊆ original_permset`;
partial-match suggestions carry the whole macro permission set and can
violate the inclusion (see the counterexample). -/
theorem C2_full_covered (d : List (String × List String))
    (filtered : List MappedRule) (usages : String → List MacroUsage)
    (ignore : List String) (threshold : Rat) (maxNo : Nat) (rutc : String) :
    ∀ g ∈ groupSuggestions d filtered usages ignore threshold maxNo rutc,
      g.score = 1 → g.macro_perms ⊆ g.original_permset := by
  intro g hg hsc
  rw [groupSuggestions] at hg
  rcases List.mem_append.mp hg with hf | hp
  · rw [fullSugs] at hf
    by_cases hw : (fit d (groupPerms filtered)).1.isEmpty
    · rw [if_pos hw] at hf
      simp at hf
    · rw [if_neg hw] at hf
      cases hloop : winnerLoop usages (fit d (groupPerms filtered)).1 filtered with
      | none => rw [hloop] at hf; simp at hf
      | some w =>
        rw [hloop] at hf
        obtain ⟨x, hx, hgx⟩ := List.mem_map.mp hf
        have hxw : x ∈ w := (List.mem_filter.mp hx).1
        have hxwin : x ∈ (fit d (groupPerms filtered)).1 :=
          winnerLoop_mem usages filtered _ w hloop x hxw
        have hxones : x ∈ onesOf d (groupPerms filtered) :=
          (fit_winner_sublist d (groupPerms filtered)).mem hxwin
        have hsub := ones_values_subset d (groupPerms filtered) x hxones
        rw [← hgx]
        exact hsub
  · rw [partSugs] at hp
    by_cases hpe : (fit d (groupPerms filtered)).2.isEmpty
    · rw [if_pos hpe] at hp
      simp at hp
    · rw [if_neg hpe] at hp
      by_cases hu : filtered.any fun r => ¬ (usages r.fileline).isEmpty
      · rw [if_pos hu] at hp
        simp at hp
      · rw [if_neg hu] at hp
        obtain ⟨x, hx, hgx⟩ := List.mem_map.mp hp
        have hx1 : x ∈ sortDesc ((fit d (groupPerms filtered)).2.filter
            fun x => threshold ≤ x.score ∧ ¬ ignore.contains x.name) :=
          List.mem_of_mem_take hx
        have hx2 := sortDesc_mem _ _ hx1
        have hx3 : x ∈ (fit d (groupPerms filtered)).2 :=
          (List.mem_filter.mp hx2).1
        rw [fit_eq] at hx3
        simp only at hx3
        have hxne := (List.mem_filter.mp hx3).2
        have : ¬ x.score = 1 := by simpa using hxne
        rw [← hgx] at hsc
        exact absurd hsc this

/-- C2 counterexample: for catalog {m ↦ {read, write}} and a group whose
merged permission set is {read}, the engine emits a partial-match
suggestion whose `macro_perms` {read, write} is not a subset of the
group's original permission set {read}, refuting the invariant for
partial-match suggestions. -/
theorem C2_counterexample :
    ∃ g ∈ groupSuggestions [("m", ["read", "write"])]
        [{ fileline := "f:1", perms := ["read"] }] (fun _ => []) []
        ((1 : Rat) / 2) 3 "sig",
      ¬ g.macro_perms ⊆ g.original_permset := by
  have hperm : groupPerms [{ fileline := "f:1", perms := ["read"] }] =
      ["read"] := rfl
  have hsc : (scoreFold (initRich "m" ["read", "write"]) ["read"]).score =
      (1 : Rat) / 2 := by
    rw [score_of_fold]
    have hcard : ((["read", "write"] : List String).toFinset ∩
        (["read"] : List String).toFinset).card = 1 := by decide
    have hlen : (["read", "write"] : List String).length = 2 := rfl
    rw [hcard, hlen]
    norm_num
  have hne : ¬ (scoreFold (initRich "m" ["read", "write"]) ["read"]).score = 1 := by
    rw [hsc]; norm_num
  have hrich : richOf [("m", ["read", "write"])] ["read"] =
      [scoreFold (initRich "m" ["read", "write"]) ["read"]] := rfl
  have hpart : (fit [("m", ["read", "write"])] ["read"]).2 =
      [scoreFold (initRich "m" ["read", "write"]) ["read"]] := by
    rw [fit_eq]
    simp only
    rw [hrich, List.filter_cons, List.filter_nil]
    rw [decide_eq_true (by simpa using hne)]
    simp
  have hcond : ((1 : Rat) / 2 ≤
        (scoreFold (initRich "m" ["read", "write"]) ["read"]).score ∧
      ¬ ([] : List String).contains
        (scoreFold (initRich "m" ["read", "write"]) ["read"]).name) := by
    refine ⟨?_, by simp⟩
    rw [hsc]
  have hps : partSugs [("m", ["read", "write"])]
      [{ fileline := "f:1", perms := ["read"] }] (fun _ => []) []
      ((1 : Rat) / 2) 3 "sig" =
      [mkSug (scoreFold (initRich "m" ["read", "write"]) ["read"]) "sig"
        (["read"] : List String).toFinset] := by
    rw [partSugs]
    simp only [hperm, hpart]
    rw [List.filter_cons, List.filter_nil, decide_eq_true hcond]
    simp [sortDesc, insDesc]
  refine ⟨mkSug (scoreFold (initRich "m" ["read", "write"]) ["read"]) "sig"
    (["read"] : List String).toFinset, ?_, ?_⟩
  · rw [groupSuggestions]
    refine List.mem_append_right _ ?_
    rw [hps]
    simp
  · have hval : (scoreFold (initRich "m" ["read", "write"]) ["read"]).values =
        ["read", "write"] := rfl
    simp only [mkSug, hval]
    decide

/-- C2 witness: the amended inclusion evaluated on a full-match
suggestion emitted for catalog {rw ↦ {read, write}} over the group
permission set {read, write}. -/
theorem C2_witness :
    (mkSug (scoreFold (initRich "rw" ["read", "write"]) ["read", "write"]) "sig"
        (["read", "write"] : List String).toFinset).macro_perms ⊆
      (mkSug (scoreFold (initRich "rw" ["read", "write"]) ["read", "write"]) "sig"
        (["read", "write"] : List String).toFinset).original_permset := by
  have hsc : (scoreFold (initRich "rw" ["read", "write"])
      ["read", "write"]).score = 1 := by
    rw [score_of_fold]
    have hcard : ((["read", "write"] : List String).toFinset ∩
        (["read", "write"] : List String).toFinset).card = 2 := by decide
    have hlen : (["read", "write"] : List String).length = 2 := rfl
    rw [hcard, hlen]
    norm_num
  have hperm : groupPerms [{ fileline := "f:1", perms := ["read", "write"] }] =
      ["read", "write"] := rfl
  have hones : onesOf [("rw", ["read", "write"])] ["read", "write"] =
      [scoreFold (initRich "rw" ["read", "write"]) ["read", "write"]] := by
    rw [onesOf]
    have hrich : richOf [("rw", ["read", "write"])] ["read", "write"] =
        [scoreFold (initRich "rw" ["read", "write"]) ["read", "write"]] := rfl
    rw [hrich, List.filter_cons, List.filter_nil, decide_eq_true hsc]
    simp
  have hwin : (fit [("rw", ["read", "write"])] ["read", "write"]).1 =
      [scoreFold (initRich "rw" ["read", "write"]) ["read", "write"]] := by
    rw [fit_eq]
    simp only
    rw [hones]
    rfl
  have hfull : fullSugs [("rw", ["read", "write"])]
      [{ fileline := "f:1", perms := ["read", "write"] }] (fun _ => []) []
      "sig" =
      [mkSug (scoreFold (initRich "rw" ["read", "write"]) ["read", "write"])
        "sig" (["read", "write"] : List String).toFinset] := by
    rw [fullSugs]
    simp only [hperm, hwin]
    rfl
  refine C2_full_covered [("rw", ["read", "write"])]
    [{ fileline := "f:1", perms := ["read", "write"] }] (fun _ => []) []
    ((1 : Rat) / 2) 3 "sig" _ ?_ ?_
  · rw [groupSuggestions]
    refine List.mem_append_left _ ?_
    rw [hfull]
    simp
  · simpa [mkSug] using hsc

/-! ### Claim C9 -/

theorem winnerLoop_no_used (usages : String → List MacroUsage) :
    ∀ (rs : List MappedRule) (w w' : List RichSet),
      winnerLoop usages w rs = some w' →
      ∀ r ∈ rs, ∀ u ∈ usages r.fileline, ∀ x ∈ w', u.mname ≠ x.name := by
  intro rs
  induction rs with
  | nil =>
    intro w w' _ r hr
    simp at hr
  | cons r0 rest ih =>
    intro w w' h r hr u hu x hx
    rw [winnerLoop] at h
    by_cases hms : (usages r0.fileline).isEmpty
    · rw [if_pos hms] at h
      rcases List.mem_cons.mp hr with rfl | hr'
      · rw [List.isEmpty_iff.mp hms] at hu
        simp at hu
      · exact ih w w' h r hr' u hu x hx
    · rw [if_neg hms] at h
      by_cases hng : (usages r0.fileline).any fun m => ¬ m.globalDefined
      · rw [if_pos hng] at h
        cases h
      · rw [if_neg hng] at h
        by_cases hw' : (w.filter fun y =>
            ¬ ((usages r0.fileline).map fun m => m.mname).contains y.name).isEmpty
        · rw [if_pos hw'] at h
          cases h
        · rw [if_neg hw'] at h
          rcases List.mem_cons.mp hr with rfl | hr'
          · have hxw : x ∈ w.filter fun y =>
                ¬ ((usages r.fileline).map fun m => m.mname).contains y.name :=
              winnerLoop_mem usages rest _ w' h x hx
            have hnc := (List.mem_filter.mp hxw).2
            intro heq
            simp only [List.contains_eq_any_beq, decide_not] at hnc
            simp at hnc
            exact hnc u hu heq
          · exact ih _ w' h r hr' u hu x hx

/-- C9: no suggestion emitted for a group proposes a macro that is
already invoked at one of the group's contributing lines, and the
partial-match path is suppressed outright whenever any contributing
line records any macro usage. -/
theorem C9_no_redundant_suggestion (d : List (String × List String))
    (filtered : List MappedRule) (usages : String → List MacroUsage)
    (ignore : List String) (threshold : Rat) (maxNo : Nat) (rutc : String) :
    (∀ g ∈ groupSuggestions d filtered usages ignore threshold maxNo rutc,
      ∀ r ∈ filtered, ∀ u ∈ usages r.fileline, u.mname ≠ g.name) ∧
    ((∃ r ∈ filtered, usages r.fileline ≠ []) →
      partSugs d filtered usages ignore threshold maxNo rutc = []) := by
  have hsupp : (∃ r ∈ filtered, usages r.fileline ≠ []) →
      partSugs d filtered usages ignore threshold maxNo rutc = [] := by
    rintro ⟨r, hr, hne⟩
    rw [partSugs]
    by_cases hpe : (fit d (groupPerms filtered)).2.isEmpty
    · rw [if_pos hpe]
    · rw [if_neg hpe]
      have hany : (filtered.any fun r => ¬ (usages r.fileline).isEmpty) = true := by
        rw [List.any_eq_true]
        refine ⟨r, hr, ?_⟩
        simp [List.isEmpty_iff, hne]
      rw [if_pos hany]
  refine ⟨?_, hsupp⟩
  intro g hg r hr u hu
  rw [groupSuggestions] at hg
  rcases List.mem_append.mp hg with hf | hp
  · rw [fullSugs] at hf
    by_cases hw : (fit d (groupPerms filtered)).1.isEmpty
    · rw [if_pos hw] at hf
      simp at hf
    · rw [if_neg hw] at hf
      cases hloop : winnerLoop usages (fit d (groupPerms filtered)).1 filtered with
      | none => rw [hloop] at hf; simp at hf
      | some w =>
        rw [hloop] at hf
        obtain ⟨x, hx, hgx⟩ := List.mem_map.mp hf
        have hxw : x ∈ w := (List.mem_filter.mp hx).1
        have := winnerLoop_no_used usages filtered _ w hloop r hr u hu x hxw
        rw [← hgx]
        exact this
  · have : partSugs d filtered usages ignore threshold maxNo rutc = [] :=
      hsupp ⟨r, hr, List.ne_nil_of_mem hu⟩
    rw [this] at hp
    simp at hp

/-- C9 witness: the partial-suppression conjunct evaluated at a group
whose single line records a macro usage. -/
theorem C9_witness :
    partSugs [("m", ["read", "write"])] [{ fileline := "f:1", perms := ["read"] }]
      (fun _ => [{ mname := "other", globalDefined := true }]) []
      ((1 : Rat) / 2) 3 "sig" = [] :=
  (C9_no_redundant_suggestion _ _ _ _ _ _ _).2
    ⟨{ fileline := "f:1", perms := ["read"] }, by simp, by simp⟩

/-! ### Claim C10 -/

theorem take_set_of_le (v : List String) :
    ∀ (l : Store) (i n : Nat), n ≤ i → (l.set i v).take n = l.take n := by
  intro l
  induction l with
  | nil => intro i n _; simp
  | cons a as ih =>
    intro i n hni
    cases i with
    | zero =>
      have : n = 0 := Nat.le_zero.mp hni
      simp [this]
    | succ j =>
      cases n with
      | zero => simp
      | succ m =>
        simp only [List.set_cons_succ, List.take_succ_cons]
        rw [ih j m (Nat.le_of_succ_le_succ hni)]

theorem setfold_take (cref n : Nat) (h : n ≤ cref) :
    ∀ (c : List RichSetH) (s : Store),
      ((c.foldl (fun s x =>
          s.set cref (cellUnion (getRef s cref) (getRef s x.valuesRef))) s).take n
        = s.take n) ∧
      ((c.foldl (fun s x =>
          s.set cref (cellUnion (getRef s cref) (getRef s x.valuesRef))) s).length
        = s.length) := by
  intro c
  induction c with
  | nil => intro s; exact ⟨rfl, rfl⟩
  | cons x xs ih =>
    intro s
    have hstep := ih (s.set cref (cellUnion (getRef s cref) (getRef s x.valuesRef)))
    refine ⟨?_, ?_⟩
    · rw [List.foldl_cons, hstep.1, take_set_of_le _ _ _ _ h]
    · rw [List.foldl_cons, hstep.2, List.length_set]

theorem combBody_take (sref n : Nat)
    (acc : Store × List (List RichSetH × Nat)) (c : List RichSetH)
    (h1 : n ≤ acc.1.length) :
    n ≤ (combBody sref acc c).1.length ∧
      (combBody sref acc c).1.take n = acc.1.take n := by
  rw [combBody]
  simp only
  have hc := setfold_take acc.1.length n h1 c (acc.1 ++ [[]])
  constructor
  · rw [List.length_append, hc.2, List.length_append]
    simp
    omega
  · rw [List.take_append_of_le_length, hc.1, List.take_append_of_le_length h1]
    rw [hc.2, List.length_append]
    simp
    omega

theorem foldl_combBody_take (sref n : Nat) :
    ∀ (combos : List (List RichSetH))
      (acc : Store × List (List RichSetH × Nat)), n ≤ acc.1.length →
      n ≤ (combos.foldl (combBody sref) acc).1.length ∧
        (combos.foldl (combBody sref) acc).1.take n = acc.1.take n := by
  intro combos
  induction combos with
  | nil => intro acc h; exact ⟨h, rfl⟩
  | cons c cs ih =>
    intro acc h
    have hstep := combBody_take sref n acc c h
    have hrest := ih (combBody sref acc c) hstep.1
    exact ⟨hrest.1, by rw [List.foldl_cons, hrest.2, hstep.2]⟩

theorem getRef_of_take_eq {l l' : Store} {n i : Nat}
    (h : l'.take n = l.take n) (hi : i < n) : getRef l' i = getRef l i := by
  have h1 : (l'.take n).getD i [] = (l.take n).getD i [] := by rw [h]
  rw [getRef, getRef]
  rw [List.getD_eq_getD_get?, List.getD_eq_getD_get?] at h1 ⊢
  rw [List.get?_take hi, List.get?_take hi] at h1
  exact h1

/-- C10: `SetFitter.fit` is observationally pure with respect to the
store: every cell that existed before the call — in particular every
catalog entry's set and the target set — holds the same value
afterwards; the combination loop only writes the freshly allocated
`c_set` and `extra` cells. -/
theorem C10_fit_frame (st : Store) (d : List (String × Nat)) (sref : Nat) :
    ∀ i < st.length, getRef (fitH st d sref).1 i = getRef st i := by
  intro i hi
  have hfold := foldl_combBody_take sref st.length
    (combosOfH (((fitLoopH (d.map fun p => initRichH st p) (getRef st sref)).filter
      fun x => x.score = 1))) (st, []) (le_refl _)
  have hstore : (fitH st d sref).1 =
      ((combosOfH (((fitLoopH (d.map fun p => initRichH st p)
        (getRef st sref)).filter fun x => x.score = 1))).foldl
          (combBody sref) (st, [])).1 := rfl
  rw [hstore]
  refine getRef_of_take_eq ?_ hi
  rw [hfold.2]

/-- C10 witness: the frame property evaluated at a one-cell store. -/
theorem C10_witness :
    getRef (fitH [["read"]] [] 0).1 0 = getRef [["read"]] 0 :=
  C10_fit_frame [["read"]] [] 0 0 (by decide)

/-! ### Matching lemmas -/

theorem hasArg_false_iff (segs : List Seg) :
    hasArg segs = false ↔ argsOf segs = [] := by
  induction segs with
  | nil => simp [hasArg, argsOf]
  | cons s rest ih =>
    cases s with
    | lit l => simp [hasArg, argsOf] at ih ⊢; exact ih
    | arg n => simp [hasArg, argsOf]

theorem renderSubL_noArg (σ : Nat → String) (segs : List Seg)
    (h : argsOf segs = []) : renderSubL σ segs = renderStrL segs := by
  induction segs with
  | nil => rfl
  | cons s rest ih =>
    cases s with
    | lit l =>
      simp only [argsOf, List.filterMap_cons] at h
      rw [renderSubL, renderStrL, ih h]
    | arg n =>
      simp [argsOf, List.filterMap_cons] at h

theorem isPrefixOf_bridge {l t : List Char} :
    l.isPrefixOf t = true ↔ l <+: t :=
  List.isPrefixOf_iff_prefix

theorem prefix_append_split {a b t : List Char} :
    (a ++ b) <+: t ↔ a <+: t ∧ b <+: t.drop a.length := by
  constructor
  · rintro ⟨u, hu⟩
    subst hu
    constructor
    · exact ⟨b ++ u, by simp⟩
    · rw [List.append_assoc, List.drop_left]
      exact ⟨u, rfl⟩
  · rintro ⟨⟨u, hu⟩, hb⟩
    subst hu
    rw [List.drop_left] at hb
    obtain ⟨v, hv⟩ := hb
    exact ⟨v, by rw [← hv, List.append_assoc]⟩

theorem matchSegs_noArg (segs : List Seg) (h : argsOf segs = []) :
    ∀ t : List Char, matchSegs segs t =
      if (renderStrL segs).isPrefixOf t then some [] else none := by
  induction segs with
  | nil =>
    intro t
    simp [matchSegs, renderStrL, List.isPrefixOf]
  | cons s rest ih =>
    cases s with
    | lit l =>
      intro t
      simp only [argsOf, List.filterMap_cons] at h
      rw [matchSegs, renderStrL]
      by_cases hpre : l.toList.isPrefixOf t
      · rw [if_pos hpre, ih h]
        have hpre' : l.toList <+: t := isPrefixOf_bridge.mp hpre
        by_cases hrest : (renderStrL rest).isPrefixOf (t.drop l.toList.length)
        · rw [if_pos hrest, if_pos]
          rw [isPrefixOf_bridge, prefix_append_split]
          exact ⟨hpre', isPrefixOf_bridge.mp hrest⟩
        · rw [if_neg hrest, if_neg]
          rw [isPrefixOf_bridge, prefix_append_split]
          rintro ⟨-, hb⟩
          exact hrest (isPrefixOf_bridge.mpr hb)
      · rw [if_neg hpre, if_neg]
        rw [isPrefixOf_bridge, prefix_append_split]
        rintro ⟨ha, -⟩
        exact hpre (isPrefixOf_bridge.mpr ha)
    | arg n =>
      simp [argsOf, List.filterMap_cons] at h

theorem matchSegs_noArg_self (segs : List Seg) (h : argsOf segs = [])
    (t : List Char) :
    matchSegs segs (renderStrL segs ++ t) = some [] := by
  rw [matchSegs_noArg segs h, if_pos]
  rw [isPrefixOf_bridge]
  exact ⟨t, rfl⟩

theorem matchSegs_noArg_short (segs : List Seg) (h : argsOf segs = [])
    (t : List Char) (hlen : t.length < (renderStrL segs).length) :
    matchSegs segs t = none := by
  rw [matchSegs_noArg segs h, if_neg]
  rw [isPrefixOf_bridge]
  intro hp
  exact absurd hp.length_le (by omega)

theorem argTry_found (inner : List Char → Option (List (List Char)))
    (w L : List Char) (cs : List (List Char))
    (hw : w ≠ []) (hid : w.all idChar = true)
    (hsucc : inner L = some cs)
    (hfail : ∀ k, w.length < k → k ≤ (w ++ L).length →
      inner ((w ++ L).drop k) = none) :
    ∀ k, w.length ≤ k → k ≤ (w ++ L).length →
      argTry inner (w ++ L) k = some (w :: cs) := by
  intro k
  induction k with
  | zero =>
    intro hk _
    exact absurd (List.eq_nil_of_length_eq_zero (Nat.le_zero.mp hk)) hw
  | succ j ih =>
    intro hk hk2
    by_cases heq : w.length = j + 1
    · rw [argTry]
      have htake : (w ++ L).take (j + 1) = w := by
        rw [← heq, List.take_left]
      have hdrop : (w ++ L).drop (j + 1) = L := by
        rw [← heq, List.drop_left]
      rw [htake, hdrop, if_pos hid, hsucc]
    · have hlt : w.length ≤ j := by omega
      have hdnone : inner ((w ++ L).drop (j + 1)) = none :=
        hfail (j + 1) (by omega) hk2
      rw [argTry]
      by_cases hall : ((w ++ L).take (j + 1)).all idChar
      · rw [if_pos hall, hdnone]
        exact ih hlt (by omega)
      · rw [if_neg hall]
        exact ih hlt (by omega)

theorem matchSegs_one_arg :
    ∀ (segs : List Seg) (n : Nat) (σ : Nat → String),
      argsOf segs = [n] →
      (∀ m, σ m ≠ "" ∧ (σ m).toList.all idChar = true) →
      matchSegs segs (renderSubL σ segs) = some [(σ n).toList] := by
  intro segs
  induction segs with
  | nil => intro n σ h _; simp [argsOf] at h
  | cons s rest ih =>
    intro n σ h hσ
    cases s with
    | lit l =>
      simp only [argsOf, List.filterMap_cons] at h
      rw [renderSubL, matchSegs, if_pos, List.drop_left]
      · exact ih n σ h hσ
      · rw [isPrefixOf_bridge]
        exact ⟨renderSubL σ rest, rfl⟩
    | arg m =>
      have hh : m = n ∧ argsOf rest = [] := by
        simp only [argsOf, List.filterMap_cons] at h
        have := List.cons_eq_cons.mp h
        exact ⟨this.1, this.2⟩
      obtain ⟨rfl, hrest⟩ := hh
      rw [renderSubL, renderSubL_noArg σ rest hrest, matchSegs]
      have hw : (σ m).toList ≠ [] := by
        intro hnil
        have : σ m = "" := by
          have h1 : String.mk (σ m).toList = σ m := rfl
          rw [hnil] at h1
          exact h1.symm
        exact (hσ m).1 this
      have hsucc : matchSegs rest (renderStrL rest) = some [] := by
        have h0 := matchSegs_noArg_self rest hrest []
        simpa using h0
      have hfail : ∀ k, (σ m).toList.length < k →
          k ≤ ((σ m).toList ++ renderStrL rest).length →
          matchSegs rest (((σ m).toList ++ renderStrL rest).drop k) = none := by
        intro k hk1 hk2
        have hlen : ((((σ m).toList ++ renderStrL rest)).drop k).length <
            (renderStrL rest).length := by
          rw [List.length_drop, List.length_append]
          rw [List.length_append] at hk2
          omega
        exact matchSegs_noArg_short rest hrest _ hlen
      exact argTry_found (fun t => matchSegs rest t) (σ m).toList
        (renderStrL rest) [] hw (hσ m).2 hsucc hfail _ (by simp) (le_refl _)

/-- First occurrences of a list's elements that are not in `seen`, in
order: the key order of the Python binding dictionary. -/
def firstsNotIn (seen : List Nat) : List Nat → List Nat
  | [] => []
  | n :: l => if n ∈ seen then firstsNotIn seen l else n :: firstsNotIn (n :: seen) l

theorem firstsNotIn_congr :
    ∀ (l : List Nat) (s₁ s₂ : List Nat), (∀ a, a ∈ s₁ ↔ a ∈ s₂) →
      firstsNotIn s₁ l = firstsNotIn s₂ l := by
  intro l
  induction l with
  | nil => intro s₁ s₂ _; rfl
  | cons n l ih =>
    intro s₁ s₂ h
    rw [firstsNotIn, firstsNotIn]
    by_cases hn : n ∈ s₁
    · rw [if_pos hn, if_pos ((h n).mp hn)]
      exact ih s₁ s₂ h
    · rw [if_neg hn, if_neg (fun hc => hn ((h n).mpr hc))]
      refine congrArg (List.cons n) (ih _ _ fun a => ?_)
      simp only [List.mem_cons]
      constructor
      · rintro (rfl | ha)
        · exact Or.inl rfl
        · exact Or.inr ((h a).mp ha)
      · rintro (rfl | ha)
        · exact Or.inl rfl
        · exact Or.inr ((h a).mpr ha)

theorem lookup_some_mem {l : List (Nat × List Char)} {a : Nat} {v : List Char}
    (h : l.lookup a = some v) : (a, v) ∈ l := by
  induction l with
  | nil => simp [List.lookup] at h
  | cons p rest ih =>
    rw [List.lookup] at h
    by_cases hpa : a = p.1
    · have hb : (a == p.1) = true := by simp [hpa]
      rw [hb] at h
      simp only [Option.some.injEq] at h
      exact List.mem_cons.mpr (Or.inl (by rw [hpa, ← h]))
    · have hb : (a == p.1) = false := by simp [hpa]
      rw [hb] at h
      exact List.mem_cons_of_mem p (ih h)

theorem lookup_none_not_mem {l : List (Nat × List Char)} {a : Nat}
    (h : l.lookup a = none) : a ∉ l.map fun p => p.1 := by
  induction l with
  | nil => simp
  | cons p rest ih =>
    rw [List.lookup] at h
    by_cases hpa : a = p.1
    · have hb : (a == p.1) = true := by simp [hpa]
      rw [hb] at h
      cases h
    · have hb : (a == p.1) = false := by simp [hpa]
      rw [hb] at h
      simp only [List.map_cons, List.mem_cons]
      rintro (rfl | hmem)
      · exact hpa rfl
      · exact ih h hmem

theorem bindArgs_cons_some {acc : List (Nat × List Char)} {a : Nat}
    {m v : List Char} (h : acc.lookup a = some v)
    (rest : List (Nat × List Char)) :
    bindArgs acc ((a, m) :: rest) =
      if v = m then bindArgs acc rest else Except.error () := by
  rw [bindArgs, h]

theorem bindArgs_cons_none {acc : List (Nat × List Char)} {a : Nat}
    {m : List Char} (h : acc.lookup a = none)
    (rest : List (Nat × List Char)) :
    bindArgs acc ((a, m) :: rest) = bindArgs (acc ++ [(a, m)]) rest := by
  rw [bindArgs, h]

theorem bindArgs_map (f : Nat → List Char) :
    ∀ (l : List Nat) (acc : List (Nat × List Char)),
      (∀ p ∈ acc, p.2 = f p.1) →
      bindArgs acc (l.map fun n => (n, f n)) =
        Except.ok (acc ++ (firstsNotIn (acc.map fun p => p.1) l).map
          fun n => (n, f n)) := by
  intro l
  induction l with
  | nil =>
    intro acc _
    simp [bindArgs, firstsNotIn]
  | cons n l ih =>
    intro acc hacc
    rw [List.map_cons]
    cases hlk : acc.lookup n with
    | some v =>
      have hmem := lookup_some_mem hlk
      have hv : v = f n := hacc (n, v) hmem
      rw [bindArgs_cons_some hlk, if_pos hv, ih acc hacc]
      have hkey : n ∈ acc.map fun p => p.1 :=
        List.mem_map.mpr ⟨(n, v), hmem, rfl⟩
      rw [firstsNotIn, if_pos hkey]
    | none =>
      have hnk := lookup_none_not_mem hlk
      have hacc' : ∀ p ∈ acc ++ [(n, f n)], p.2 = f p.1 := by
        intro p hp
        rcases List.mem_append.mp hp with hp | hp
        · exact hacc p hp
        · simp at hp
          rw [hp]
      rw [bindArgs_cons_none hlk, ih (acc ++ [(n, f n)]) hacc']
      rw [firstsNotIn, if_neg hnk]
      have hseen : firstsNotIn ((acc ++ [(n, f n)]).map fun p => p.1) l =
          firstsNotIn (n :: acc.map fun p => p.1) l := by
        refine firstsNotIn_congr l _ _ fun a => ?_
        simp only [List.map_append, List.mem_append, List.map_cons,
          List.map_nil, List.mem_singleton, List.mem_cons]
        tauto
      rw [hseen]
      simp

theorem matchStd_subst (segs : List Seg) (σ : Nat → String)
    (h : (argsOf segs).length ≤ 1)
    (hσ : ∀ m, σ m ≠ "" ∧ (σ m).toList.all idChar = true) :
    matchStd segs (renderSub σ segs) =
      some ((argsOf segs).map fun n => (σ n).toList) := by
  cases hcase : argsOf segs with
  | nil =>
    have hna : hasArg segs = false := (hasArg_false_iff segs).mpr hcase
    rw [matchStd, hna]
    simp only [Bool.false_eq_true, if_false]
    rw [if_pos]
    · simp
    · rw [renderSub, renderSubL_noArg σ segs hcase, renderStr]
  | cons n rest =>
    cases rest with
    | nil =>
      have hha : hasArg segs = true := by
        cases hha2 : hasArg segs with
        | true => rfl
        | false =>
          rw [(hasArg_false_iff segs).mp hha2] at hcase
          cases hcase
      rw [matchStd, hha]
      simp only [if_true]
      have hms := matchSegs_one_arg segs n σ hcase hσ
      have htl : (renderSub σ segs).toList = renderSubL σ segs := rfl
      rw [htl, hms]
      simp
    | cons m rest2 =>
      rw [hcase] at h
      simp at h

theorem matchTgt_subst (segs : List Seg) (σ : Nat → String) (src' : String)
    (h : (argsOf segs).length ≤ 1)
    (hσ : ∀ m, σ m ≠ "" ∧ (σ m).toList.all idChar = true) :
    matchTgt segs src' (renderSub σ segs) =
      some ((argsOf segs).map fun n => (σ n).toList) := by
  cases hcase : argsOf segs with
  | nil =>
    have hna : hasArg segs = false := (hasArg_false_iff segs).mpr hcase
    have heq : renderSub σ segs = renderStr segs := by
      rw [renderSub, renderSubL_noArg σ segs hcase, renderStr]
    rw [matchTgt, hna]
    simp only [Bool.false_eq_true, if_false]
    rw [heq]
    by_cases hself : renderStr segs = "self"
    · rw [if_neg, if_neg]
      · simp
      · simp [hself]
      · rintro ⟨-, hne⟩
        exact hne hself
    · rw [if_neg, if_neg]
      · simp
      · simp
      · rintro ⟨hs, -⟩
        exact hself hs
  | cons n rest =>
    cases rest with
    | nil =>
      have hha : hasArg segs = true := by
        cases hha2 : hasArg segs with
        | true => rfl
        | false =>
          rw [(hasArg_false_iff segs).mp hha2] at hcase
          cases hcase
      rw [matchTgt, hha]
      simp only [if_true]
      have hms := matchSegs_one_arg segs n σ hcase hσ
      have htl : (renderSub σ segs).toList = renderSubL σ segs := rfl
      rw [htl, hms]
      simp
    | cons m rest2 =>
      rw [hcase] at h
      simp at h

theorem objMatch_some (e : ArgExtractor) (onm : String) :
    objMatch e (some onm) =
      if hasArg (e.objname.getD []) then
        match matchSegs (e.objname.getD []) onm.toList with
        | some caps => some [caps.headI]
        | none => none
      else if stripQuotes onm ≠ stripQuotes (renderStr (e.objname.getD [])) then
        none
      else some [] := by
  rw [objMatch]

theorem av_ne_tt {k : String} (h : k ∈ AVRULES) : k ≠ "type_transition" := by
  fin_cases h <;> decide

theorem av_not_te {k : String} (h : k ∈ AVRULES) : k ∉ TERULES := by
  fin_cases h <;> decide

theorem match_rule_subst (e : ArgExtractor) (σ : Nat → String)
    (hkind : e.kind ∈ AVRULES ∨ e.kind = "type_transition")
    (hsrc : (argsOf e.src).length ≤ 1)
    (htgt : (argsOf e.tgt).length ≤ 1)
    (hcls : (argsOf e.cls).length ≤ 1)
    (hvarAV : e.kind ∈ AVRULES → argsOf e.var = [])
    (hvarTT : (argsOf e.var).length ≤ 1)
    (hobjAV : e.kind ∈ AVRULES → e.objname = none)
    (hobj : (argsOf (e.objname.getD [])).length ≤ 1)
    (hσ : ∀ m, σ m ≠ "" ∧ (σ m).toList.all idChar = true) :
    match_rule e (substRule e σ) =
      some ((eargs e).map fun n => (σ n).toList) := by
  have hsrcM : matchStd e.src (substRule e σ).source =
      some ((argsOf e.src).map fun n => (σ n).toList) := by
    simp only [substRule]
    exact matchStd_subst e.src σ hsrc hσ
  have htgtM : matchTgt e.tgt (substRule e σ).source (substRule e σ).target =
      some ((argsOf e.tgt).map fun n => (σ n).toList) := by
    simp only [substRule]
    exact matchTgt_subst e.tgt σ _ htgt hσ
  have hclsM : matchStd e.cls (substRule e σ).tclass =
      some ((argsOf e.cls).map fun n => (σ n).toList) := by
    simp only [substRule]
    exact matchStd_subst e.cls σ hcls hσ
  have hrt : (substRule e σ).ruletype = e.kind := rfl
  rcases hkind with hA | hB
  · have hTT : e.kind ≠ "type_transition" := av_ne_tt hA
    have hobj0 : e.objname = none := hobjAV hA
    have hvar0 : argsOf e.var = [] := hvarAV hA
    have h1 : objChk e (substRule e σ) = some none := by
      rw [objChk, hrt, if_neg hTT, if_pos hA]
    have h5 : varChk e (substRule e σ) = some [] := by
      rw [varChk, hrt, if_pos hA, regexPerms, if_pos hA]
      have hperm : (substRule e σ).perms = parsePerms (renderStr e.var) := by
        simp only [substRule, if_pos hA]
        rw [renderSub, renderSubL_noArg σ e.var hvar0, renderStr]
      rw [hperm]
      simp
    have h6 : objMatch e none = some [] := rfl
    rw [match_rule, h1, Option.some_bind, hrt, if_pos rfl, Option.some_bind,
      hsrcM, Option.some_bind, htgtM, Option.some_bind, hclsM,
      Option.some_bind, h5, Option.some_bind, h6, Option.map_some']
    rw [eargs, hvar0, hobj0]
    simp [List.map_append, argsOf]
  · have hAV2 : e.kind ∉ AVRULES := by rw [hB]; decide
    have h5 : varChk e (substRule e σ) =
        some ((argsOf e.var).map fun n => (σ n).toList) := by
      rw [varChk, hrt, if_neg hAV2, if_pos hB]
      have hd : (substRule e σ).default = renderSub σ e.var := rfl
      rw [hd]
      exact matchStd_subst e.var σ hvarTT hσ
    cases hco : e.objname with
    | none =>
      have h1 : objChk e (substRule e σ) = some none := by
        rw [objChk, hrt, if_pos hB]
        have : (substRule e σ).filename = none := by
          simp only [substRule, hco, Option.map_none']
        simp [hco]
      have h6 : objMatch e none = some [] := rfl
      rw [match_rule, h1, Option.some_bind, hrt, if_pos rfl, Option.some_bind,
        hsrcM, Option.some_bind, htgtM, Option.some_bind, hclsM,
        Option.some_bind, h5, Option.some_bind, h6, Option.map_some']
      rw [eargs, hco]
      simp [List.map_append, argsOf]
    | some o =>
      have hfn : (substRule e σ).filename = some (renderSub σ o) := by
        simp only [substRule, hco, Option.map_some']
      have h1 : objChk e (substRule e σ) = some (some (renderSub σ o)) := by
        rw [objChk, hrt, if_pos hB]
        rw [hfn]
        simp [hco]
      have hgetD : e.objname.getD [] = o := by rw [hco]; rfl
      have h6 : objMatch e (some (renderSub σ o)) =
          some ((argsOf o).map fun n => (σ n).toList) := by
        rw [objMatch_some, hgetD]
        cases hoa : argsOf o with
        | nil =>
          have hna : hasArg o = false := (hasArg_false_iff o).mpr hoa
          rw [hna]
          simp only [Bool.false_eq_true, if_false]
          rw [if_neg]
          · simp
          · rw [renderSub, renderSubL_noArg σ o hoa, renderStr]
            simp
        | cons n rest =>
          cases rest with
          | nil =>
            have hha : hasArg o = true := by
              cases hha2 : hasArg o with
              | true => rfl
              | false =>
                rw [(hasArg_false_iff o).mp hha2] at hoa
                cases hoa
            rw [hha]
            simp only [if_true]
            have htl : (renderSub σ o).toList = renderSubL σ o := rfl
            rw [htl, matchSegs_one_arg o n σ hoa hσ]
            simp
          | cons m rest2 =>
            rw [hgetD, hoa] at hobj
            simp at hobj
      rw [match_rule, h1, Option.some_bind, hrt, if_pos rfl, Option.some_bind,
        hsrcM, Option.some_bind, htgtM, Option.some_bind, hclsM,
        Option.some_bind, h5, Option.some_bind, h6, Option.map_some']
      rw [eargs, hco]
      simp [List.map_append]

theorem extract_some (e : ArgExtractor) (r : ConcreteRule)
    (ms : List (List Char)) (h : match_rule e r = some ms) :
    extract e r =
      if ms.isEmpty then Except.error ()
      else bindArgs [] ((eargs e).zip ms) := by
  rw [extract, h]

theorem zip_map_self (f : Nat → List Char) :
    ∀ l : List Nat, l.zip (l.map fun n => f n) = l.map fun n => (n, f n) := by
  intro l
  induction l with
  | nil => rfl
  | cons n l ih => simp only [List.map_cons, List.zip_cons_cons, ih]

/-! ### Claim C5 -/

/-- C5 (amended): for every supported template in which every block
carries at most one placeholder, the AV permission block carries none,
an AV template has no object-name block, and at least one placeholder
occurs, substituting identifier tokens for the placeholders and
matching the result extracts exactly the substituted values, one
binding per placeholder index in first-occurrence order.  (Blocks with
two placeholders break the round trip because `match_rule` keeps only
the first capture group of each block; see the counterexample.) -/
theorem C5_round_trip (e : ArgExtractor) (σ : Nat → String)
    (hkind : e.kind ∈ AVRULES ∨ e.kind = "type_transition")
    (hsrc : (argsOf e.src).length ≤ 1)
    (htgt : (argsOf e.tgt).length ≤ 1)
    (hcls : (argsOf e.cls).length ≤ 1)
    (hvarAV : e.kind ∈ AVRULES → argsOf e.var = [])
    (hvarTT : (argsOf e.var).length ≤ 1)
    (hobjAV : e.kind ∈ AVRULES → e.objname = none)
    (hobj : (argsOf (e.objname.getD [])).length ≤ 1)
    (hargs : eargs e ≠ [])
    (hσ : ∀ m, σ m ≠ "" ∧ (σ m).toList.all idChar = true) :
    extract e (substRule e σ) = Except.ok
      ((firstsNotIn [] (eargs e)).map fun n => (n, (σ n).toList)) := by
  rw [extract_some e (substRule e σ) _
    (match_rule_subst e σ hkind hsrc htgt hcls hvarAV hvarTT hobjAV hobj hσ)]
  have hms : ((eargs e).map fun n => (σ n).toList).isEmpty = false := by
    cases heargs : eargs e with
    | nil => exact absurd heargs hargs
    | cons a l => simp
  rw [hms]
  simp only [Bool.false_eq_true, if_false]
  rw [zip_map_self]
  have hb := bindArgs_map (fun n => (σ n).toList) (eargs e) [] (by simp)
  simpa using hb

/-- Template `allow @@ARG0@@_@@ARG1@@ t:file execute;`: its source
block carries two placeholders. -/
def twoArgTemplate : ArgExtractor :=
  { kind := "allow", src := [Seg.arg 0, Seg.lit "_", Seg.arg 1],
    tgt := [Seg.lit "t"], cls := [Seg.lit "file"],
    var := [Seg.lit "execute"], objname := none }

/-- The substitution ARG0 ↦ a, ARG1 ↦ b. -/
def twoArgSub : Nat → String := fun n => if n = 0 then "a" else "b"

/-- C5 counterexample: substituting a and b into the two-placeholder
template and matching back extracts only the binding for ARG0 — the
claimed result would also bind ARG1 — because `match_rule` appends only
`m.group(1)` of the source block. -/
theorem C5_counterexample :
    extract twoArgTemplate (substRule twoArgTemplate twoArgSub) =
      Except.ok [(0, "a".toList)] ∧
    ¬ extract twoArgTemplate (substRule twoArgTemplate twoArgSub) =
      Except.ok ((firstsNotIn [] (eargs twoArgTemplate)).map
        fun n => (n, (twoArgSub n).toList)) := by
  have hpos : extract twoArgTemplate (substRule twoArgTemplate twoArgSub) =
      Except.ok [(0, "a".toList)] := by rfl
  refine ⟨hpos, ?_⟩
  rw [hpos]
  intro h
  have : ([(0, "a".toList)] : List (Nat × List Char)) =
      (firstsNotIn [] (eargs twoArgTemplate)).map
        fun n => (n, (twoArgSub n).toList) := by
    injection h
  rw [show (firstsNotIn [] (eargs twoArgTemplate)).map
      (fun n => (n, (twoArgSub n).toList)) =
      [(0, "a".toList), (1, "b".toList)] from rfl] at this
  cases this

/-- The domain-transition trigger template of the plugin
configuration. -/
def triggerTemplate : ArgExtractor :=
  { kind := "type_transition", src := [Seg.arg 0], tgt := [Seg.arg 1],
    cls := [Seg.lit "process"], var := [Seg.arg 2], objname := none }

/-- The substitution of the design document's worked example. -/
def triggerSub : Nat → String := fun n =>
  if n = 0 then "initrc_t" else if n = 1 then "acct_exec_t" else "acct_t"

/-- C5 witness: the round trip evaluated on the configured
domain-transition trigger template with the worked-example types. -/
theorem C5_witness :
    extract triggerTemplate (substRule triggerTemplate triggerSub) =
      Except.ok [(0, "initrc_t".toList), (1, "acct_exec_t".toList),
        (2, "acct_t".toList)] := by
  have h := C5_round_trip triggerTemplate triggerSub
    (Or.inr rfl) (by decide) (by decide) (by decide)
    (fun hav => absurd hav (by decide)) (by decide)
    (fun hav => absurd hav (by decide)) (by decide) (by decide)
    (by
      intro m
      rw [triggerSub]
      split_ifs <;> exact ⟨by decide, by decide⟩)
  rw [h]
  rfl

/-! ### Claim C6 -/

/-- Template `allow @@ARG0@@ self:file execute;`. -/
def selfTemplate : ArgExtractor :=
  { kind := "allow", src := [Seg.arg 0], tgt := [Seg.lit "self"],
    cls := [Seg.lit "file"], var := [Seg.lit "execute"], objname := none }

/-- Concrete rule `allow foo_t foo_t:file execute;`. -/
def selfRuleSame : ConcreteRule :=
  { ruletype := "allow", source := "foo_t", target := "foo_t",
    tclass := "file", perms := {"execute"}, default := "", filename := none }

/-- Concrete rule `allow foo_t bar_t:file execute;`. -/
def selfRuleDiff : ConcreteRule :=
  { ruletype := "allow", source := "foo_t", target := "bar_t",
    tclass := "file", perms := {"execute"}, default := "", filename := none }

/-- C6: when the template's target block is the literal `self` and the
concrete rule's target is not `self`, a successful match forces the
concrete rule's source to equal its target; the template
`allow ARG0 self:file execute;` matches `allow foo_t foo_t:file
execute;` binding ARG0 to foo_t, and does not match
`allow foo_t bar_t:file execute;`. -/
theorem C6_self_expansion :
    (∀ (e : ArgExtractor) (r : ConcreteRule) (ms : List (List Char)),
      hasArg e.tgt = false → renderStr e.tgt = "self" → r.target ≠ "self" →
      match_rule e r = some ms → r.source = r.target) ∧
    extract selfTemplate selfRuleSame = Except.ok [(0, "foo_t".toList)] ∧
    match_rule selfTemplate selfRuleDiff = none := by
  refine ⟨?_, rfl, rfl⟩
  intro e r ms hna hself hne h
  by_contra hst
  have htgtm : matchTgt e.tgt r.source r.target = none := by
    rw [matchTgt, hna]
    simp only [Bool.false_eq_true, if_false]
    rw [if_pos ⟨hself, hne⟩, if_pos (fun heq => hst heq.symm)]
  rw [match_rule] at h
  obtain ⟨x1, hx1, h⟩ := Option.bind_eq_some.mp h
  obtain ⟨x2, hx2, h⟩ := Option.bind_eq_some.mp h
  obtain ⟨m1, hm1, h⟩ := Option.bind_eq_some.mp h
  obtain ⟨m2, hm2, h⟩ := Option.bind_eq_some.mp h
  rw [htgtm] at hm2
  cases hm2

/-- C6 witness: the self-expansion constraint evaluated on the matching
rule. -/
theorem C6_witness : selfRuleSame.source = selfRuleSame.target :=
  C6_self_expansion.1 selfTemplate selfRuleSame ["foo_t".toList]
    rfl rfl (by decide) rfl

/-! ### Claim C7 -/

/-- Template `allow foo_t bar_t:file { read write };`. -/
def supersetTemplate : ArgExtractor :=
  { kind := "allow", src := [Seg.lit "foo_t"], tgt := [Seg.lit "bar_t"],
    cls := [Seg.lit "file"],
    var := [Seg.lit (String.mk (obr :: " read write ".toList ++ [cbr]))],
    objname := none }

/-- Concrete rule `allow foo_t bar_t:file { read write open lock };`. -/
def supersetRule : ConcreteRule :=
  { ruletype := "allow", source := "foo_t", target := "bar_t",
    tclass := "file", perms := {"read", "write", "open", "lock"},
    default := "", filename := none }

/-- C7: for an AV template and a concrete AV rule whose kind, source,
target and class blocks match, the whole match succeeds exactly when
the concrete rule's permission set is a superset of the template's
required permission tokens; in particular a rule granting strictly more
permissions than required still matches. -/
theorem C7_superset_perms :
    (∀ (e : ArgExtractor) (r : ConcreteRule),
      e.kind ∈ AVRULES → r.ruletype = e.kind →
      (matchStd e.src r.source).isSome = true →
      (matchTgt e.tgt r.source r.target).isSome = true →
      (matchStd e.cls r.tclass).isSome = true →
      ((match_rule e r).isSome = true ↔
        parsePerms (renderStr e.var) ⊆ r.perms)) ∧
    (match_rule supersetTemplate supersetRule).isSome = true ∧
    parsePerms (renderStr supersetTemplate.var) = {"read", "write"} ∧
    parsePerms (renderStr supersetTemplate.var) ⊂ supersetRule.perms := by
  refine ⟨?_, by decide, by decide, by decide⟩
  intro e r hav hrt hm1 hm2 hm3
  have hobjchk : objChk e r = some none := by
    rw [objChk, hrt, if_neg (av_ne_tt hav), if_pos hav]
  have hvar : varChk e r =
      if parsePerms (renderStr e.var) ⊆ r.perms then some [] else none := by
    rw [varChk, hrt, if_pos hav, regexPerms, if_pos hav]
  obtain ⟨m1, hm1'⟩ := Option.isSome_iff_exists.mp hm1
  obtain ⟨m2, hm2'⟩ := Option.isSome_iff_exists.mp hm2
  obtain ⟨m3, hm3'⟩ := Option.isSome_iff_exists.mp hm3
  have hchain : match_rule e r =
      if parsePerms (renderStr e.var) ⊆ r.perms
      then some (m1 ++ m2 ++ m3 ++ [] ++ []) else none := by
    rw [match_rule, hobjchk, Option.some_bind, hrt, if_pos rfl,
      Option.some_bind, hm1', Option.some_bind, hm2', Option.some_bind,
      hm3', Option.some_bind, hvar]
    by_cases hP : parsePerms (renderStr e.var) ⊆ r.perms
    · rw [if_pos hP, if_pos hP, Option.some_bind]
      rfl
    · rw [if_neg hP, if_neg hP]
      rfl
  rw [hchain]
  by_cases hP : parsePerms (renderStr e.var) ⊆ r.perms
  · rw [if_pos hP]
    simp [hP]
  · rw [if_neg hP]
    simp [hP]

/-- C7 witness: the superset equivalence evaluated on the concrete
template and rule. -/
theorem C7_witness :
    (match_rule supersetTemplate supersetRule).isSome = true ↔
      parsePerms (renderStr supersetTemplate.var) ⊆ supersetRule.perms :=
  C7_superset_perms.1 supersetTemplate supersetRule (by decide) rfl
    (by decide) (by decide) (by decide)

/-! ### Claim C1 -/

/-- Template `allow @@ARG0@@ @@ARG0@@:file execute;` with a repeated
placeholder. -/
def repeatedTemplate : ArgExtractor :=
  { kind := "allow", src := [Seg.arg 0], tgt := [Seg.arg 0],
    cls := [Seg.lit "file"], var := [Seg.lit "execute"], objname := none }

/-- A companion template of the configured tuple. -/
def companionTemplate : ArgExtractor :=
  { kind := "allow", src := [Seg.arg 0], tgt := [Seg.arg 2],
    cls := [Seg.lit "process"], var := [Seg.lit "transition"], objname := none }

/-- C1: the concrete rule `allow foo_t bar_t:file execute;` satisfies
every per-block constraint of the repeated-placeholder template — so
the wildcard query returns it as a candidate — but `extract` raises
(`Except.error`, the uncaught `ValueError`), and the candidate-loop
body of `main` propagates the failure instead of skipping the
candidate. -/
theorem C1_ambiguous_binding_fatal :
    match_rule repeatedTemplate selfRuleDiff =
      some ["foo_t".toList, "bar_t".toList] ∧
    extract repeatedTemplate selfRuleDiff = Except.error () ∧
    process_candidate repeatedTemplate selfRuleDiff [companionTemplate] [] =
      Except.error () :=
  ⟨rfl, rfl, rfl⟩

/-! ### Claim C8 -/

/-- C8: an expected AV companion with a nonempty permission set is
reported missing exactly when the union of the permissions of the rules
mapped to its signature (empty when the signature is unmapped) is not a
superset of the expected set, and every emitted report names exactly
the expected permissions absent from that union (an unmapped signature
yields the bare expected rule, whose own permission field is that
set). -/
theorem C8_av_companion (mapping : List (RuleSig × List MappedSigRule))
    (sig : RuleSig) (eperms : Finset String) (deftext : String)
    (hav : sig.kind ∈ AVRULES) (hne : eperms.Nonempty) :
    (companionCheck mapping ⟨sig, eperms, deftext⟩ ≠ [] ↔
      ¬ eperms ⊆ unionPermsAt mapping sig) ∧
    (∀ rep ∈ companionCheck mapping ⟨sig, eperms, deftext⟩,
      namedMissing rep = eperms \ unionPermsAt mapping sig) := by
  have hnte : sig.kind ∉ TERULES := av_not_te hav
  cases hlk : mapping.lookup sig with
  | some rls =>
    have hu : unionPermsAt mapping sig =
        rls.foldl (fun a x => a ∪ x.perms) ∅ := by
      rw [unionPermsAt, hlk]
    by_cases hsub : eperms ⊆ rls.foldl (fun a x => a ∪ x.perms) ∅
    · have hcc : companionCheck mapping ⟨sig, eperms, deftext⟩ = [] := by
        rw [companionCheck, hlk]
        simp only [if_pos hav, if_neg (not_not_intro hsub), if_neg hnte]
        simp
      rw [hcc, hu]
      constructor
      · simp [hsub]
      · simp
    · have hcc : companionCheck mapping ⟨sig, eperms, deftext⟩ =
          [MissingReport.annotated sig eperms
            (eperms \ rls.foldl (fun a x => a ∪ x.perms) ∅)] := by
        rw [companionCheck, hlk]
        simp only [if_pos hav, if_pos hsub, if_neg hnte]
        simp
      rw [hcc, hu]
      constructor
      · simp [hsub]
      · intro rep hrep
        simp only [List.mem_singleton] at hrep
        rw [hrep]
        rfl
  | none =>
    have hu : unionPermsAt mapping sig = ∅ := by
      rw [unionPermsAt, hlk]
    have hcc : companionCheck mapping ⟨sig, eperms, deftext⟩ =
        [MissingReport.bare sig eperms] := by
      rw [companionCheck, hlk]
    rw [hcc, hu]
    constructor
    · constructor
      · intro _ hsub
        rw [Finset.subset_empty] at hsub
        rw [hsub] at hne
        exact Finset.not_nonempty_empty hne
      · intro _
        simp
    · intro rep hrep
      simp only [List.mem_singleton] at hrep
      rw [hrep, Finset.sdiff_empty]
      rfl

/-- C8 witness: the missing-companion equivalence evaluated on a mapped
signature whose rules grant only read while read and write are
expected. -/
theorem C8_witness :
    companionCheck
        [(RuleSig.mk "allow" "a" "b" "c",
          [MappedSigRule.mk {"read"} ""])]
        ⟨RuleSig.mk "allow" "a" "b" "c", {"read", "write"}, ""⟩ ≠ [] ↔
      ¬ ({"read", "write"} : Finset String) ⊆
        unionPermsAt
          [(RuleSig.mk "allow" "a" "b" "c",
            [MappedSigRule.mk {"read"} ""])]
          (RuleSig.mk "allow" "a" "b" "c") :=
  (C8_av_companion _ _ _ _ (by decide) (by decide)).1

end Selint
